import Mathlib

/-!
Shallow embedding of the core of libcoredd: the intrusive chained hash table
(src/coredd/detail/hash_table.hh), the unification table with its one-slot allocation cache
(src/coredd/detail/unique_table.hh), the reference-counted handle (src/coredd/ptr.hh), the
hash wrappers (src/coredd/detail/unique.hh, src/coredd/detail/cache_entry.hh) and the LRU
operation cache (src/coredd/cache.hh).

Machine pointers are modelled as natural-number addresses, placement-constructed storage as
association lists from addresses to values, and a throwing operation invocation as a function
into Option (none models a thrown exception).  std::size_t arithmetic never overflows at the
sizes involved, so plain Nat is used.
-/

namespace coredd

/-- Doubling loop behind next_power_of_2: starting from the power of two p, double until
reaching at least n; the fuel bounds the recursion and n doublings always suffice. -/
def np2_loop (n : Nat) : Nat → Nat → Nat
  | 0, p => p
  | fuel + 1, p => if n ≤ p then p else np2_loop n fuel (p * 2)

/-- Modelled from the spec: detail/next_power.hh is not under src/.  Section 4.1 of the spec
says the bucket array is sized to the next power of two greater than or equal to the
requested capacity. -/
def next_power_of_2 (n : Nat) : Nat := np2_loop n n 1

/-- Bucket index computation of hash_table.hh: the hash value masked bitwise with the bucket
count minus one (the bucket count is always a power of two). -/
def bucketIdx (h n : Nat) : Nat := h &&& (n - 1)

/-- Filter conjunction of detail/apply_filters.hh: the filters are evaluated in declaration
order and evaluation stops as soon as one filter rejects (short-circuit conjunction); the
empty filter list accepts every operation. -/
def apply_filters {Op : Type} : List (Op → Bool) → Op → Bool
  | [], _ => true
  | f :: fs, op => f op && apply_filters fs op

/-- Dereference of an address inside an address-keyed store: the first binding whose key
matches.  Used to model following a pointer into pool or heap storage. -/
def store_find {β : Type} : List (Nat × β) → Nat → Option β
  | [], _ => none
  | p :: rest, i => if p.1 = i then some p.2 else store_find rest i

/-! ### The intrusive chained hash table of detail/hash_table.hh (growing mode)

The table is generic over the stored element type; the element hash and equality are passed
explicitly where the C++ uses std::hash and operator==.  The maximal load factor is a double
in the C++; since the bucket count is a power of two, the load factor size/buckets is a
dyadic rational and its comparison against the (dyadic) double constant is exact, so the
constant is modelled as an exact fraction mlf_num/mlf_den (0.75 = 3/4 by default). -/

structure hash_table (α : Type) where
  nb_buckets : Nat
  buckets : List (List α)
  size : Nat
  mlf_num : Nat
  mlf_den : Nat
  nb_rehash : Nat
deriving DecidableEq

/-- Constructor of hash_table.hh: the bucket count is the next power of two above the
requested size, all buckets start empty. -/
def ht_init (α : Type) (requested num den : Nat) : hash_table α :=
  { nb_buckets := next_power_of_2 requested
    buckets := List.replicate (next_power_of_2 requested) []
    size := 0
    mlf_num := num
    mlf_den := den
    nb_rehash := 0 }

/-- Chain scan used by insert_impl: the first element of the bucket chain equal to x. -/
def chain_find_eq {α : Type} (eqD : α → α → Bool) (x : α) : List α → Option α
  | [] => none
  | a :: r => if eqD x a then some a else chain_find_eq eqD x r

/-- Body of hash_table::insert_impl: scan the target bucket for an equal element; on a miss
push the new element at the front of the chain and increment the size. -/
def insert_impl {α : Type} (hashD : α → Nat) (eqD : α → α → Bool) (x : α)
    (bs : List (List α)) (n : Nat) (sz : Nat) : (α × Bool) × (List (List α) × Nat) :=
  let pos := bucketIdx (hashD x) n
  let chain := bs.getD pos []
  match chain_find_eq eqD x chain with
  | some y => ((y, false), (bs, sz))
  | none => ((x, true), (bs.set pos (x :: chain), sz + 1))

/-- Body of hash_table::rehash: nothing happens while the load factor is below the maximum;
otherwise the bucket count doubles, the size is reset and every element is re-inserted with
insert_impl into the new bucket array, walking the old buckets in order and each chain front
to back. -/
def ht_rehash {α : Type} (hashD : α → Nat) (eqD : α → α → Bool) (t : hash_table α) :
    hash_table α :=
  if t.size * t.mlf_den < t.mlf_num * t.nb_buckets then t
  else
    let n2 := t.nb_buckets * 2
    let folded := t.buckets.flatten.foldl
      (fun acc a => (insert_impl hashD eqD a acc.1 n2 acc.2).2)
      (List.replicate n2 [], 0)
    { t with nb_buckets := n2, buckets := folded.1, size := folded.2,
             nb_rehash := t.nb_rehash + 1 }

/-- State of hash_table::insert after insert_impl has run but before the rehash check. -/
def ht_insert_mid {α : Type} (hashD : α → Nat) (eqD : α → α → Bool) (x : α)
    (t : hash_table α) : hash_table α :=
  { t with buckets := (insert_impl hashD eqD x t.buckets t.nb_buckets t.size).2.1,
           size := (insert_impl hashD eqD x t.buckets t.nb_buckets t.size).2.2 }

/-- Growing-mode hash_table::insert: run insert_impl on the current bucket array, then
rehash when the load factor has reached the maximum.  Returns the pair (stored element,
inserted?) exactly as the C++ does. -/
def ht_insert {α : Type} (hashD : α → Nat) (eqD : α → α → Bool) (x : α)
    (t : hash_table α) : (α × Bool) × hash_table α :=
  ((insert_impl hashD eqD x t.buckets t.nb_buckets t.size).1,
   ht_rehash hashD eqD (ht_insert_mid hashD eqD x t))

/-- Chain walk of hash_table::erase: unlink the first element equal to x; the flag reports
whether one was found (when none is found the C++ asserts in debug builds and leaves the
table unchanged in release builds). -/
def chain_erase {α : Type} (eqD : α → α → Bool) (x : α) : List α → List α × Bool
  | [] => ([], false)
  | a :: r =>
    if eqD x a then (r, true)
    else
      let res := chain_erase eqD x r
      (a :: res.1, res.2)

/-- hash_table::erase: locate the bucket through the element's own hash, unlink the first
equal element of the chain and decrement the size when one was found. -/
def ht_erase {α : Type} (hashD : α → Nat) (eqD : α → α → Bool) (x : α)
    (t : hash_table α) : hash_table α :=
  let pos := bucketIdx (hashD x) t.nb_buckets
  let res := chain_erase eqD x (t.buckets.getD pos [])
  { t with buckets := t.buckets.set pos res.1,
           size := if res.2 then t.size - 1 else t.size }

/-- Well-formedness of a bucket array with its bucket count and size counter, as maintained
by the source: the bucket count is a power of two and matches the bucket array, the size
counts the chained elements, every element sits in the bucket selected by its hash, and no
two elements of a chain are equal (hash_table.hh invariants (a) and (b) of the spec,
section 4.1). -/
structure raw_inv {α : Type} (hashD : α → Nat) (eqD : α → α → Bool)
    (n : Nat) (bs : List (List α)) (sz : Nat) : Prop where
  pow2 : ∃ k, n = 2 ^ k
  blen : bs.length = n
  hsize : sz = bs.flatten.length
  placed : ∀ i < bs.length, ∀ a ∈ bs.getD i [], bucketIdx (hashD a) n = i
  chains_ne : ∀ c ∈ bs, c.Pairwise (fun a b => eqD a b = false)

/-- Well-formedness of a hash table state. -/
def ht_inv {α : Type} (hashD : α → Nat) (eqD : α → α → Bool) (t : hash_table α) : Prop :=
  raw_inv hashD eqD t.nb_buckets t.buckets t.size

/-! ### The unification table of detail/unique_table.hh

Elements of the underlying growing hash table are pairs (address, payload): the C++ stores
pointers to unique objects and lets hash and equality dereference them, so the element hash
is the payload hash and the element equality is payload equality (detail/unique.hh).  The
one-slot allocation cache keeps one slab address together with the byte size the table
recorded for it; heap tracks the live new[] blocks with their allocated byte sizes and freed
records every delete[].  sU stands for sizeof(U). -/

/-- Hash of a stored unique element: std::hash of unique dereferences to the payload
(detail/unique.hh). -/
def uhash {V : Type} (hashV : V → Nat) (p : Nat × V) : Nat := hashV p.2

/-- Equality of stored unique elements: unique::operator== compares the payloads only
(detail/unique.hh). -/
def ubeq {V : Type} (beqV : V → V → Bool) (p q : Nat × V) : Bool := beqV p.2 q.2

structure ut_state (V : Type) where
  table : hash_table (Nat × V)
  m_cache : Option Nat
  m_cache_size : Nat
  next_addr : Nat
  heap : List (Nat × Nat)
  freed : List Nat
  access : Nat
  hits : Nat
  misses : Nat
  peak : Nat
deriving DecidableEq

/-- Constructor of unique_table (through unicity's constructor): an empty growing hash
table with the default maximal load factor 0.75 and an empty one-slot allocation cache. -/
def ut_init (V : Type) (initial_size : Nat) : ut_state V :=
  { table := ht_init (Nat × V) initial_size 3 4
    m_cache := none
    m_cache_size := 0
    next_addr := 0
    heap := []
    freed := []
    access := 0
    hits := 0
    misses := 0
    peak := 0 }

/-- unique_table::allocate: hand out the cached slab when one is held and its recorded size
is at least sizeof(U) + extra_bytes, emptying the one-slot cache; otherwise heap-allocate a
fresh block of sizeof(U) + extra_bytes bytes at a fresh address. -/
def ut_allocate {V : Type} (sU extra : Nat) (s : ut_state V) : Nat × ut_state V :=
  match s.m_cache with
  | some a =>
    if sU + extra ≤ s.m_cache_size then
      (a, { s with m_cache := none, m_cache_size := 0 })
    else
      (s.next_addr, { s with next_addr := s.next_addr + 1,
                             heap := (s.next_addr, sU + extra) :: s.heap })
  | none =>
    (s.next_addr, { s with next_addr := s.next_addr + 1,
                           heap := (s.next_addr, sU + extra) :: s.heap })

/-- unique_table::operator(): insert the pre-constructed element living at address a into
the hash table.  On a miss count it and update the peak.  On a hit the duplicate is
destructed; when sizeof(U) + extra_bytes exceeds the recorded size of the cached slab the
duplicate's slab is adopted as the new cached slab (the previously cached slab, if any, is
freed), otherwise the duplicate's slab is freed.  Returns the address of the stored
element. -/
def ut_unify {V : Type} (hashV : V → Nat) (beqV : V → V → Bool) (sU : Nat)
    (a : Nat) (v : V) (extra : Nat) (s : ut_state V) : Nat × ut_state V :=
  let r := ht_insert (uhash hashV) (ubeq beqV) (a, v) s.table
  if r.1.2 then
    (r.1.1.1, { s with access := s.access + 1, table := r.2, misses := s.misses + 1,
                       peak := max s.peak r.2.size })
  else if s.m_cache_size < sU + extra then
    match s.m_cache with
    | some old =>
      (r.1.1.1, { s with access := s.access + 1, table := r.2, hits := s.hits + 1,
                         m_cache := some a, m_cache_size := sU + extra,
                         heap := s.heap.eraseP (fun p => p.1 == old),
                         freed := old :: s.freed })
    | none =>
      (r.1.1.1, { s with access := s.access + 1, table := r.2, hits := s.hits + 1,
                         m_cache := some a, m_cache_size := sU + extra })
  else
    (r.1.1.1, { s with access := s.access + 1, table := r.2, hits := s.hits + 1,
                       heap := s.heap.eraseP (fun p => p.1 == a),
                       freed := a :: s.freed })

/-- unique_table::erase: remove the element from the hash table (precondition: its reference
counter is zero), destruct it and free its slab. -/
def ut_erase {V : Type} (hashV : V → Nat) (beqV : V → V → Bool)
    (a : Nat) (v : V) (s : ut_state V) : ut_state V :=
  { s with table := ht_erase (uhash hashV) (ubeq beqV) (a, v) s.table,
           heap := s.heap.eraseP (fun p => p.1 == a),
           freed := a :: s.freed }

/-- unicity::make_sized (unicity.hh): allocate storage, placement-construct the unique value
there and unify it, returning the address of the unified element. -/
def ut_make {V : Type} (hashV : V → Nat) (beqV : V → V → Bool) (sU : Nat)
    (v : V) (extra : Nat) (s : ut_state V) : Nat × ut_state V :=
  let al := ut_allocate sU extra s
  ut_unify hashV beqV sU al.1 v extra al.2

/-- Well-formedness of a unification table state: the hash table invariant, pairwise
distinct stored addresses, all stored addresses allocated before next_addr, and the cached
slab is not an element of the table. -/
structure ut_inv {V : Type} (hashV : V → Nat) (beqV : V → V → Bool)
    (s : ut_state V) : Prop where
  tinv : ht_inv (uhash hashV) (ubeq beqV) s.table
  addr_nodup : (s.table.buckets.flatten.map Prod.fst).Nodup
  addr_lt : ∀ p ∈ s.table.buckets.flatten, p.1 < s.next_addr
  cache_lt : ∀ a, s.m_cache = some a → a < s.next_addr
  cache_not_mem : ∀ a, s.m_cache = some a → ∀ p ∈ s.table.buckets.flatten, p.1 ≠ a

/-! ### The reference-counting handle of ptr.hh

A handle's stored field m_x is an address; the unified objects live in an address-keyed
store carrying payload and reference counter.  The registered deletion handler is the one
installed by unicity's constructor: it erases the object from the table (unicity.hh line
39).  Accessing an address that is no longer in the store models a use of freed memory; the
sticky ub flag records that this happened. -/

structure ref_state (V : Type) where
  objs : List (Nat × V × Nat)
  ub : Bool

/-- Reference-counter bump of unique::increment_reference_counter, invoked through a handle
holding address a. -/
def rs_incr {V : Type} (a : Nat) (s : ref_state V) : ref_state V :=
  match store_find s.objs a with
  | none => { s with ub := true }
  | some pv =>
    { s with objs := s.objs.map (fun p => if p.1 = a then (p.1, pv.1, pv.2 + 1) else p) }

/-- Drop of one reference through a handle holding address a (ptr.hh): decrement the
counter; when it reaches zero the deletion handler runs, erasing the object from the
unification table, destructing it and freeing its slab. -/
def rs_drop_ref {V : Type} (a : Nat) (s : ref_state V) : ref_state V :=
  match store_find s.objs a with
  | none => { s with ub := true }
  | some pv =>
    if pv.2 - 1 = 0 then { s with objs := s.objs.eraseP (fun p => p.1 == a) }
    else { s with objs := s.objs.map (fun p => if p.1 = a then (p.1, pv.1, pv.2 - 1) else p) }

/-- ptr::operator=(const ptr&) for a non-moved-from target (m_x not null): decrement the
current referent and run the deletion handler if the count reached zero, then adopt the
source address and increment its counter.  Returns the assigned handle's new address. -/
def ptr_copy_assign {V : Type} (lhs rhs : Nat) (s : ref_state V) : Nat × ref_state V :=
  let s1 := rs_drop_ref lhs s
  (rhs, rs_incr rhs s1)

/-! ### The hash wrappers (P7 hash consistency) -/

/-- Modelled from the spec: hash.hh with the seed/val hash combinators is not under src/.
The spec (sections 4.1 and 9, property P7) requires the seed of a single value, used as a
hash, to coincide with that value's own hash, so seed is modelled as the hash itself. -/
def seed_hash {β : Type} (hashB : β → Nat) (x : β) : Nat := hashB x

/-- Data model of detail/unique.hh: a reference counter wrapped around an immutable
payload (the intrusive hook carries no observable data). -/
structure unique_wrap (T : Type) where
  ref_count : Nat
  data : T

/-- std::hash of unique (detail/unique.hh lines 125-134): the hash of the payload. -/
def unique_hash {T : Type} (hashT : T → Nat) (u : unique_wrap T) : Nat := hashT u.data

/-- unique::operator==: payload equality. -/
def unique_wrap_beq {T : Type} (beqT : T → T → Bool) (a b : unique_wrap T) : Bool :=
  beqT a.data b.data

/-- Data model of a handle for hashing purposes: the raw stored pointer value. -/
structure ptr_handle where
  m_x : Nat

/-- std::hash of a handle (ptr.hh lines 233-242): the seed of the stored pointer value. -/
def ptr_hash (hashAddr : Nat → Nat) (p : ptr_handle) : Nat := seed_hash hashAddr p.m_x

/-- Handle equality (ptr.hh): pointer identity. -/
def ptr_beq (a b : ptr_handle) : Bool := a.m_x == b.m_x

/-- Hash of a cache entry (detail/cache_entry.hh lines 110-121): the seed of the stored
operation, so that erase and insert_check select the same bucket. -/
def entry_hash {Op R : Type} (hashOp : Op → Nat) (e : Op × R) : Nat := seed_hash hashOp e.1

/-! ### The operation cache of cache.hh

Cache entries are pool slots; a slot index plays the role of the entry's address.  The
fixed-mode hash table keeps chains of slot indices, the store maps a live slot to the
operation/result pair placement-constructed there, lru is the intrusive LRU list of entry
pointers (front = oldest), and free is the pool free list (allocation pops the head,
deallocation pushes).  Operation evaluation op(context) is modelled as eval : Op → Option R
where none models a thrown exception; the context is fixed for the cache's lifetime, so it
is absorbed into eval. -/

structure cache_state (Op R : Type) where
  nb_buckets : Nat
  buckets : List (List Nat)
  store : List (Nat × Op × R)
  lru : List Nat
  free : List Nat
  max_size : Nat
  size : Nat
  hits : Nat
  misses : Nat
  filtered : Nat
  discarded : Nat
deriving DecidableEq

/-- Outcome of a cache lookup: a result, a propagated operation failure, or undefined
behaviour (a dereference of destructed storage or exhausted-pool allocation). -/
inductive LookupResult (R : Type) where
  | ok (r : R)
  | opFailed
  | corrupt
deriving DecidableEq

/-- Outcome of the insert_check chain scan. -/
inductive chain_scan (Op R : Type) where
  | stale
  | notFound
  | found (i : Nat) (e : Op × R)
deriving DecidableEq

/-- Chain walk of hash_table::insert_check as instantiated by the cache: compare the looked
up operation against each chained entry's stored operation; dereferencing a destructed slot
is undefined behaviour. -/
def chain_lookup {Op R : Type} (beqOp : Op → Op → Bool) (store : List (Nat × Op × R))
    (op : Op) : List Nat → chain_scan Op R
  | [] => .notFound
  | i :: rest =>
    match store_find store i with
    | none => .stale
    | some e => if beqOp op e.1 then .found i e else chain_lookup beqOp store op rest

/-- Chain walk of hash_table::erase as instantiated by the cache: unlink the first chained
entry whose stored operation equals the key entry's operation.  none models a stale
dereference; otherwise the new chain is returned together with the unlinked slot, if any. -/
def chain_remove {Op R : Type} (beqOp : Op → Op → Bool) (store : List (Nat × Op × R))
    (opKey : Op) : List Nat → Option (List Nat × Option Nat)
  | [] => some ([], none)
  | i :: rest =>
    match store_find store i with
    | none => none
    | some e =>
      if beqOp opKey e.1 then some (rest, some i)
      else
        match chain_remove beqOp store opKey rest with
        | none => none
        | some p => some (i :: p.1, p.2)

/-- Splice of the LRU list moving one entry to the most-recently-used back end
(cache.hh line 131). -/
def move_to_back (i : Nat) (l : List Nat) : List Nat := l.erase i ++ [i]

/-- Eviction step of cache::operator() (cache.hh lines 140-149): when the cache is full,
take the front (oldest) LRU entry, erase it from the hash table through its own hash and
operation equality, destruct it, push its slot back onto the pool free list, pop the LRU
front and count the discard.  none models the undefined behaviour of dereferencing an
already destructed front entry (or an empty LRU list on a full cache). -/
def cleanup_if_full {Op R : Type} (hashOp : Op → Nat) (beqOp : Op → Op → Bool)
    (c : cache_state Op R) : Option (cache_state Op R) :=
  if c.size = c.max_size then
    match c.lru with
    | [] => none
    | oldest :: lruRest =>
      match store_find c.store oldest with
      | none => none
      | some oe =>
        match chain_remove beqOp c.store oe.1
            (c.buckets.getD (bucketIdx (entry_hash hashOp oe) c.nb_buckets) []) with
        | none => none
        | some p =>
          some { c with
                   buckets := c.buckets.set (bucketIdx (entry_hash hashOp oe) c.nb_buckets)
                     p.1,
                   size := if p.2.isSome then c.size - 1 else c.size,
                   store := c.store.eraseP (fun q => q.1 == oldest),
                   free := oldest :: c.free,
                   lru := lruRest,
                   discarded := c.discarded + 1 }
  else some c

/-- Commit step of cache::operator() (cache.hh lines 151-159): allocate a slot from the
pool, placement-construct the entry there, append it at the back of the LRU list and commit
it at the tail of the bucket chain captured by insert_check, then return the stored
result. -/
def commit_entry {Op R : Type} (c : cache_state Op R) (op : Op) (res : R) (pos : Nat) :
    LookupResult R × cache_state Op R :=
  match c.free with
  | [] => (.corrupt, c)
  | slot :: rest =>
    (.ok res,
     { c with free := rest,
              store := (slot, op, res) :: c.store,
              lru := c.lru ++ [slot],
              buckets := c.buckets.set pos ((c.buckets.getD pos []) ++ [slot]),
              size := c.size + 1 })

/-- cache::operator() (cache.hh lines 110-160): filter gate, then insert_check probe; on a
hit bump hits, splice the entry to the LRU back and return the stored result; on a miss
bump misses, invoke the operation (a failure propagates with no further state change),
evict the LRU front if the cache is full, and commit the new entry. -/
def cache_lookup {Op R : Type} (hashOp : Op → Nat) (beqOp : Op → Op → Bool)
    (filters : List (Op → Bool)) (eval : Op → Option R)
    (c : cache_state Op R) (op : Op) : LookupResult R × cache_state Op R :=
  if apply_filters filters op = false then
    match eval op with
    | none => (.opFailed, { c with filtered := c.filtered + 1 })
    | some r => (.ok r, { c with filtered := c.filtered + 1 })
  else
    match chain_lookup beqOp c.store op
        (c.buckets.getD (bucketIdx (hashOp op) c.nb_buckets) []) with
    | .stale => (.corrupt, c)
    | .found i e =>
      (.ok e.2, { c with hits := c.hits + 1, lru := move_to_back i c.lru })
    | .notFound =>
      match eval op with
      | none => (.opFailed, { c with misses := c.misses + 1 })
      | some res =>
        match cleanup_if_full hashOp beqOp { c with misses := c.misses + 1 } with
        | none => (.corrupt, { c with misses := c.misses + 1 })
        | some c2 => commit_entry c2 op res (bucketIdx (hashOp op) c.nb_buckets)

/-- cache::clear (cache.hh lines 162-172): clear_and_dispose walks every bucket, destructs
each chained entry and returns its slot to the pool, then resets the buckets and the size.
The LRU list member is not touched by the source. -/
def cache_clear {Op R : Type} (c : cache_state Op R) : cache_state Op R :=
  { c with buckets := List.replicate c.nb_buckets [],
           store := c.store.filter (fun p => !(c.buckets.flatten.contains p.1)),
           free := c.buckets.flatten.reverse ++ c.free,
           size := 0 }

/-- Cache constructor (cache.hh lines 94-101): the fixed-mode hash table has
next_power_of_2 requested buckets, the capacity is bucket_count * 0.85 truncated (the
bucket count is a power of two never divisible by 20, so truncating the double product
equals Nat division by 100 of 85 times the bucket count at all realistic sizes), and the
pool holds exactly capacity slots threaded in order into the free list. -/
def cache_init (Op R : Type) (requested : Nat) : cache_state Op R :=
  let n := next_power_of_2 requested
  let cap := n * 85 / 100
  { nb_buckets := n
    buckets := List.replicate n []
    store := []
    lru := []
    free := List.range cap
    max_size := cap
    size := 0
    hits := 0
    misses := 0
    filtered := 0
    discarded := 0 }

/-- Well-formedness of a cache state, as maintained by cache.hh between public calls: the
bucket count is a power of two matching the bucket array; the size counts the chained
slots; the capacity bounds the size; slot indices are unique in the store and in the
chains; store and chains hold exactly the same slots; the LRU list is a permutation of the
chained slots; every entry sits in the bucket selected by its operation's hash; distinct
entries hold unequal operations; every stored result is the operation's own result; and
free slots are not live. -/
structure cacheWF {Op R : Type} (hashOp : Op → Nat) (beqOp : Op → Op → Bool)
    (eval : Op → Option R) (c : cache_state Op R) : Prop where
  pow2 : ∃ k, c.nb_buckets = 2 ^ k
  blen : c.buckets.length = c.nb_buckets
  hsize : c.size = c.buckets.flatten.length
  size_le : c.size ≤ c.max_size
  keys_nodup : (c.store.map Prod.fst).Nodup
  chains_nodup : c.buckets.flatten.Nodup
  store_ids : ∀ p ∈ c.store, p.1 ∈ c.buckets.flatten
  chain_ids : ∀ i ∈ c.buckets.flatten, (store_find c.store i).isSome
  lru_perm : List.Perm c.lru c.buckets.flatten
  placed : ∀ bi < c.buckets.length, ∀ i ∈ c.buckets.getD bi [], ∀ p ∈ c.store,
    p.1 = i → bucketIdx (hashOp p.2.1) c.nb_buckets = bi
  ops_ne : ∀ p ∈ c.store, ∀ q ∈ c.store, p.1 ≠ q.1 → beqOp p.2.1 q.2.1 = false
  results_ok : ∀ p ∈ c.store, eval p.2.1 = some p.2.2
  free_fresh : ∀ i ∈ c.free, store_find c.store i = none

/-! ### Concrete instances

Small executable instances of the components over natural-number operations, payloads and
results; the identity hash and Nat equality satisfy the client contract of section 6 of the
spec.  natEval models an operation invocation mapping n to n + 1; the traces below replay
short call sequences used to evaluate the model on concrete inputs. -/

def natHash : Nat → Nat := fun n => n

def natEval : Nat → Option Nat := fun n => some (n + 1)

def cW0 : cache_state Nat Nat := cache_init Nat Nat 4

def cW1 : cache_state Nat Nat := (cache_lookup natHash Nat.beq [] natEval cW0 5).2

def cW5 : cache_state Nat Nat :=
  (cache_lookup natHash Nat.beq [] natEval (cache_init Nat Nat 2) 0).2

def utW : ut_state Nat := (ut_make (fun v => v) Nat.beq 1 7 0 (ut_init Nat 2)).2

def tW : hash_table Nat := (ht_insert (fun n => n) Nat.beq 0 (ht_init Nat 2 3 4)).2

def c10_s1 : cache_state Nat Nat := (cache_lookup natHash Nat.beq [] natEval cW0 1).2

def c10_s2 : cache_state Nat Nat := (cache_lookup natHash Nat.beq [] natEval c10_s1 2).2

def c10_s3 : cache_state Nat Nat := cache_clear c10_s2

def c10_s4 : cache_state Nat Nat := (cache_lookup natHash Nat.beq [] natEval c10_s3 3).2

/-! ## Helper lemmas -/

theorem bucketIdx_two_pow (h k : Nat) : bucketIdx h (2 ^ k) = h % 2 ^ k := by
  unfold bucketIdx
  apply Nat.eq_of_testBit_eq
  intro i
  simp [Nat.testBit_and, Nat.testBit_mod_two_pow, Nat.testBit_two_pow_sub_one, Bool.and_comm]

theorem bucketIdx_lt (h n : Nat) (hn : ∃ k, n = 2 ^ k) : bucketIdx h n < n := by
  obtain ⟨k, rfl⟩ := hn
  rw [bucketIdx_two_pow]
  exact Nat.mod_lt _ (Nat.pos_pow_of_pos k (by omega))

theorem store_find_some_mem {β : Type} {l : List (Nat × β)} {i : Nat} {b : β}
    (h : store_find l i = some b) : (i, b) ∈ l := by
  induction l with
  | nil => simp [store_find] at h
  | cons p rest ih =>
    by_cases hp : p.1 = i
    · simp only [store_find, if_pos hp] at h
      injection h with h2
      have hpe : (i, b) = p := by rw [← hp, ← h2]
      exact hpe ▸ List.mem_cons_self p rest
    · simp only [store_find, if_neg hp] at h
      exact List.mem_cons_of_mem _ (ih h)

theorem store_find_none_not_mem {β : Type} {l : List (Nat × β)} {i : Nat}
    (h : store_find l i = none) : ∀ b, (i, b) ∉ l := by
  induction l with
  | nil => simp
  | cons p rest ih =>
    by_cases hp : p.1 = i
    · simp [store_find, if_pos hp] at h
    · simp only [store_find, if_neg hp] at h
      intro b hb
      rcases List.mem_cons.mp hb with h1 | h1
      · exact hp (by rw [← h1])
      · exact ih h b h1

theorem store_find_isSome_of_mem {β : Type} {l : List (Nat × β)} {i : Nat} {b : β}
    (h : (i, b) ∈ l) : (store_find l i).isSome := by
  cases hf : store_find l i with
  | none => exact absurd h (store_find_none_not_mem hf b)
  | some c => rfl

theorem store_find_eq_of_mem {β : Type} {l : List (Nat × β)} {i : Nat} {b : β}
    (hnd : (l.map Prod.fst).Nodup) (h : (i, b) ∈ l) : store_find l i = some b := by
  induction l with
  | nil => simp at h
  | cons p rest ih =>
    rcases List.mem_cons.mp h with h1 | h1
    · subst h1
      simp [store_find]
    · have hp : p.1 ≠ i := by
        intro he
        have : i ∈ rest.map Prod.fst := List.mem_map.mpr ⟨(i, b), h1, rfl⟩
        simp only [List.map_cons, List.nodup_cons] at hnd
        exact hnd.1 (he ▸ this)
      simp only [store_find, if_neg hp]
      exact ih (List.nodup_cons.mp (by simpa using hnd)).2 h1

theorem flatten_decomp {α : Type} (bs : List (List α)) (i : Nat) (h : i < bs.length) :
    bs.flatten = (bs.take i).flatten ++ bs.getD i [] ++ (bs.drop (i + 1)).flatten := by
  conv_lhs => rw [← List.take_append_drop i bs]
  rw [List.drop_eq_getElem_cons h, List.flatten_append, List.flatten_cons,
    List.getD_eq_getElem bs [] h, List.append_assoc]

theorem flatten_set {α : Type} (bs : List (List α)) (i : Nat) (d : List α)
    (h : i < bs.length) :
    (bs.set i d).flatten = (bs.take i).flatten ++ d ++ (bs.drop (i + 1)).flatten := by
  rw [List.set_eq_take_append_cons_drop, if_pos h, List.flatten_append, List.flatten_cons,
    List.append_assoc]

theorem flatten_set_cons_perm {α : Type} (bs : List (List α)) (i : Nat) (x : α)
    (h : i < bs.length) :
    List.Perm ((bs.set i (x :: bs.getD i [])).flatten) (x :: bs.flatten) := by
  rw [flatten_set bs i _ h, flatten_decomp bs i h]
  have h1 : (bs.take i).flatten ++ (x :: bs.getD i []) ++ (bs.drop (i + 1)).flatten
      = (bs.take i).flatten ++ (x :: (bs.getD i [] ++ (bs.drop (i + 1)).flatten)) := by
    simp [List.append_assoc]
  have h2 : x :: ((bs.take i).flatten ++ bs.getD i [] ++ (bs.drop (i + 1)).flatten)
      = x :: ((bs.take i).flatten ++ (bs.getD i [] ++ (bs.drop (i + 1)).flatten)) := by
    simp [List.append_assoc]
  rw [h1, h2]
  exact List.perm_middle

theorem flatten_set_append_perm {α : Type} (bs : List (List α)) (i : Nat) (x : α)
    (h : i < bs.length) :
    List.Perm ((bs.set i (bs.getD i [] ++ [x])).flatten) (x :: bs.flatten) := by
  rw [flatten_set bs i _ h, flatten_decomp bs i h]
  have h1 : (bs.take i).flatten ++ (bs.getD i [] ++ [x]) ++ (bs.drop (i + 1)).flatten
      = ((bs.take i).flatten ++ bs.getD i []) ++ (x :: (bs.drop (i + 1)).flatten) := by
    simp [List.append_assoc]
  have h2 : x :: ((bs.take i).flatten ++ bs.getD i [] ++ (bs.drop (i + 1)).flatten)
      = x :: (((bs.take i).flatten ++ bs.getD i []) ++ (bs.drop (i + 1)).flatten) := by
    simp [List.append_assoc]
  rw [h1, h2]
  exact List.perm_middle

/-! ## Hash table lemmas -/

theorem chain_find_eq_none {α : Type} {eqD : α → α → Bool} {x : α} {l : List α}
    (h : ∀ a ∈ l, eqD x a = false) : chain_find_eq eqD x l = none := by
  induction l with
  | nil => rfl
  | cons a r ih =>
    have ha := h a (List.mem_cons_self a r)
    simp only [chain_find_eq, ha, Bool.false_eq_true, if_false]
    exact ih fun b hb => h b (List.mem_cons_of_mem a hb)

theorem chain_find_eq_isSome {α : Type} {eqD : α → α → Bool} {x : α} {l : List α} {y : α}
    (hy : y ∈ l) (hxy : eqD x y = true) : (chain_find_eq eqD x l).isSome := by
  induction l with
  | nil => simp at hy
  | cons a r ih =>
    by_cases ha : eqD x a = true
    · simp [chain_find_eq, ha]
    · rcases List.mem_cons.mp hy with h1 | h1
      · exact absurd (h1 ▸ hxy) ha
      · simpa [chain_find_eq, ha] using ih h1

theorem chain_find_eq_mem {α : Type} {eqD : α → α → Bool} {x : α} {l : List α} {y : α}
    (h : chain_find_eq eqD x l = some y) : y ∈ l ∧ eqD x y = true := by
  induction l with
  | nil => simp [chain_find_eq] at h
  | cons a r ih =>
    by_cases ha : eqD x a = true
    · simp only [chain_find_eq, if_pos ha] at h
      injection h with h2
      subst h2
      exact ⟨List.mem_cons_self a r, ha⟩
    · simp only [chain_find_eq, if_neg ha] at h
      have := ih h
      exact ⟨List.mem_cons_of_mem a this.1, this.2⟩

theorem chain_find_eq_unique {α : Type} {eqD : α → α → Bool} {x : α} {l : List α} {y : α}
    (hy : y ∈ l) (hxy : eqD x y = true)
    (honly : ∀ a ∈ l, eqD x a = true → a = y) :
    chain_find_eq eqD x l = some y := by
  induction l with
  | nil => simp at hy
  | cons a r ih =>
    by_cases ha : eqD x a = true
    · have hay := honly a (List.mem_cons_self a r) ha
      subst hay
      simp [chain_find_eq, ha]
    · rcases List.mem_cons.mp hy with h1 | h1
      · exact absurd (h1 ▸ hxy) ha
      · simp only [chain_find_eq, if_neg ha]
        exact ih h1 fun b hb => honly b (List.mem_cons_of_mem a hb)

theorem insert_impl_of_found {α : Type} (hashD : α → Nat) (eqD : α → α → Bool) (x : α)
    (bs : List (List α)) (n sz : Nat) {y : α}
    (h : chain_find_eq eqD x (bs.getD (bucketIdx (hashD x) n) []) = some y) :
    insert_impl hashD eqD x bs n sz = ((y, false), (bs, sz)) := by
  simp only [insert_impl, h]

theorem insert_impl_of_miss {α : Type} (hashD : α → Nat) (eqD : α → α → Bool) (x : α)
    (bs : List (List α)) (n sz : Nat)
    (h : chain_find_eq eqD x (bs.getD (bucketIdx (hashD x) n) []) = none) :
    insert_impl hashD eqD x bs n sz =
      ((x, true),
       (bs.set (bucketIdx (hashD x) n) (x :: bs.getD (bucketIdx (hashD x) n) []), sz + 1)) := by
  simp only [insert_impl, h]

theorem getD_set_self {α : Type} (l : List (List α)) (i : Nat) (d : List α)
    (h : i < l.length) : (l.set i d).getD i [] = d := by
  rw [List.getD_eq_getElem _ [] (by simpa using h)]
  exact List.getElem_set_self (by simpa using h)

theorem getD_set_ne {α : Type} (l : List (List α)) (i j : Nat) (d : List α)
    (hne : i ≠ j) : (l.set i d).getD j [] = l.getD j [] := by
  by_cases hj : j < l.length
  · rw [List.getD_eq_getElem _ [] (by simpa using hj), List.getD_eq_getElem _ [] hj]
    exact List.getElem_set_ne hne (by simpa using hj)
  · rw [List.getD_eq_default _ [] (by simpa using Nat.le_of_not_lt hj),
      List.getD_eq_default _ [] (Nat.le_of_not_lt hj)]

theorem getD_mem {α : Type} (l : List (List α)) (i : Nat) (h : i < l.length) :
    l.getD i [] ∈ l := by
  rw [List.getD_eq_getElem l [] h]
  exact List.getElem_mem h

theorem raw_inv_insert_impl {α : Type} {hashD : α → Nat} {eqD : α → α → Bool} {x : α}
    {bs : List (List α)} {n sz : Nat} (hinv : raw_inv hashD eqD n bs sz) :
    raw_inv hashD eqD n (insert_impl hashD eqD x bs n sz).2.1
      (insert_impl hashD eqD x bs n sz).2.2
    ∧ ((insert_impl hashD eqD x bs n sz).1.2 = true →
        List.Perm (insert_impl hashD eqD x bs n sz).2.1.flatten (x :: bs.flatten))
    ∧ ((insert_impl hashD eqD x bs n sz).1.2 = false →
        (insert_impl hashD eqD x bs n sz).2.1 = bs ∧
        (insert_impl hashD eqD x bs n sz).2.2 = sz ∧
        (insert_impl hashD eqD x bs n sz).1.1 ∈ bs.flatten ∧
        eqD x (insert_impl hashD eqD x bs n sz).1.1 = true) := by
  have hpos : bucketIdx (hashD x) n < bs.length := by
    rw [hinv.blen]
    exact bucketIdx_lt _ n hinv.pow2
  cases hfind : chain_find_eq eqD x (bs.getD (bucketIdx (hashD x) n) []) with
  | some y =>
    rw [insert_impl_of_found hashD eqD x bs n sz hfind]
    have hm := chain_find_eq_mem hfind
    refine ⟨hinv, by simp, fun _ => ⟨rfl, rfl, ?_, hm.2⟩⟩
    exact List.mem_flatten.mpr ⟨bs.getD (bucketIdx (hashD x) n) [], getD_mem bs _ hpos, hm.1⟩
  | none =>
    rw [insert_impl_of_miss hashD eqD x bs n sz hfind]
    have hperm := flatten_set_cons_perm bs (bucketIdx (hashD x) n) x hpos
    refine ⟨⟨hinv.pow2, by simpa using hinv.blen, ?_, ?_, ?_⟩, fun _ => hperm, by simp⟩
    · rw [hperm.length_eq]
      simp [hinv.hsize]
    · intro i hi a ha
      by_cases hieq : i = bucketIdx (hashD x) n
      · subst hieq
        rw [getD_set_self bs _ _ hpos] at ha
        rcases List.mem_cons.mp ha with h1 | h1
        · subst h1
          rfl
        · exact hinv.placed _ hpos a h1
      · rw [getD_set_ne bs _ i _ (fun he => hieq he.symm)] at ha
        exact hinv.placed i (by simpa using hi) a ha
    · intro c hc
      rcases List.mem_or_eq_of_mem_set hc with h1 | h1
      · exact hinv.chains_ne c h1
      · subst h1
        refine List.pairwise_cons.mpr ⟨?_, hinv.chains_ne _ (getD_mem bs _ hpos)⟩
        intro a ha
        cases h2 : eqD x a with
        | false => rfl
        | true =>
          have := chain_find_eq_isSome ha h2
          rw [hfind] at this
          simp at this

theorem flatten_replicate_nil {α : Type} (n : Nat) :
    (List.replicate n ([] : List α)).flatten = [] := by
  induction n with
  | zero => rfl
  | succ m ih => simp [List.replicate_succ, ih]

theorem raw_inv_empty {α : Type} (hashD : α → Nat) (eqD : α → α → Bool) (n : Nat)
    (hn : ∃ k, n = 2 ^ k) : raw_inv hashD eqD n (List.replicate n ([] : List α)) 0 := by
  refine ⟨hn, List.length_replicate n [], by rw [flatten_replicate_nil]; rfl, ?_, ?_⟩
  · intro i hi a ha
    rw [List.getD_eq_getElem _ [] hi, List.getElem_replicate] at ha
    simp at ha
  · intro c hc
    rw [List.eq_of_mem_replicate hc]
    exact List.Pairwise.nil

theorem foldl_insert_raw {α : Type} (hashD : α → Nat) (eqD : α → α → Bool) (n : Nat)
    (l : List α) (bs : List (List α)) (sz : Nat)
    (hinv : raw_inv hashD eqD n bs sz)
    (hcross : ∀ a ∈ l, ∀ b ∈ bs.flatten, eqD a b = false)
    (hpair : l.Pairwise (fun a b => eqD b a = false)) :
    raw_inv hashD eqD n
      (l.foldl (fun acc a => (insert_impl hashD eqD a acc.1 n acc.2).2) (bs, sz)).1
      (l.foldl (fun acc a => (insert_impl hashD eqD a acc.1 n acc.2).2) (bs, sz)).2
    ∧ List.Perm
      (l.foldl (fun acc a => (insert_impl hashD eqD a acc.1 n acc.2).2) (bs, sz)).1.flatten
      (l ++ bs.flatten) := by
  induction l generalizing bs sz with
  | nil => exact ⟨hinv, by simp⟩
  | cons a rest ih =>
    have hposa : bucketIdx (hashD a) n < bs.length := by
      rw [hinv.blen]
      exact bucketIdx_lt _ n hinv.pow2
    have hchain : ∀ b ∈ bs.getD (bucketIdx (hashD a) n) [], eqD a b = false := by
      intro b hb
      refine hcross a (List.mem_cons_self a rest) b ?_
      exact List.mem_flatten.mpr ⟨_, getD_mem bs _ hposa, hb⟩
    have hfind := chain_find_eq_none hchain
    have hstep := insert_impl_of_miss hashD eqD a bs n sz hfind
    have hres := raw_inv_insert_impl (x := a) hinv
    have hmiss : (insert_impl hashD eqD a bs n sz).1.2 = true := by rw [hstep]
    have hperm1 := hres.2.1 hmiss
    have hfold : (a :: rest).foldl (fun acc c => (insert_impl hashD eqD c acc.1 n acc.2).2)
        (bs, sz) = rest.foldl (fun acc c => (insert_impl hashD eqD c acc.1 n acc.2).2)
        ((insert_impl hashD eqD a bs n sz).2.1, (insert_impl hashD eqD a bs n sz).2.2) := by
      simp [List.foldl_cons]
    have hcross1 : ∀ c ∈ rest, ∀ b ∈ (insert_impl hashD eqD a bs n sz).2.1.flatten,
        eqD c b = false := by
      intro c hc b hb
      have hb2 := (hperm1.mem_iff).mp hb
      rcases List.mem_cons.mp hb2 with h1 | h1
      · subst h1
        exact (List.pairwise_cons.mp hpair).1 c hc
      · exact hcross c (List.mem_cons_of_mem a hc) b h1
    have hmain := ih (insert_impl hashD eqD a bs n sz).2.1
      (insert_impl hashD eqD a bs n sz).2.2 hres.1 hcross1 hpair.of_cons
    rw [hfold]
    refine ⟨hmain.1, List.Perm.trans hmain.2 ?_⟩
    refine List.Perm.trans (List.Perm.append_left rest hperm1) ?_
    exact List.Perm.trans List.perm_middle (by simp)

theorem global_ne_of_raw_inv {α : Type} {hashD : α → Nat} {eqD : α → α → Bool}
    {n : Nat} {bs : List (List α)} {sz : Nat} (hinv : raw_inv hashD eqD n bs sz)
    (hashEq : ∀ a b, eqD a b = true → hashD a = hashD b)
    (hsymm : ∀ a b, eqD a b = eqD b a) :
    bs.flatten.Pairwise (fun a b => eqD a b = false ∧ eqD b a = false) := by
  rw [List.pairwise_flatten]
  constructor
  · intro c hc
    refine (hinv.chains_ne c hc).imp ?_
    intro a b hab
    exact ⟨hab, by rw [hsymm]; exact hab⟩
  · rw [List.pairwise_iff_getElem]
    intro i j hi hj hij a ha b hb
    have hga : bs.getD i [] = bs[i] := List.getD_eq_getElem bs [] hi
    have hgb : bs.getD j [] = bs[j] := List.getD_eq_getElem bs [] hj
    have hpa := hinv.placed i hi a (by rw [hga]; exact ha)
    have hpb := hinv.placed j hj b (by rw [hgb]; exact hb)
    constructor
    · cases he : eqD a b with
      | false => rfl
      | true =>
        rw [hashEq a b he] at hpa
        omega
    · cases he : eqD b a with
      | false => rfl
      | true =>
        rw [hashEq b a he] at hpb
        omega

theorem ht_rehash_spec {α : Type} {hashD : α → Nat} {eqD : α → α → Bool}
    {t : hash_table α} (hinv : ht_inv hashD eqD t)
    (hashEq : ∀ a b, eqD a b = true → hashD a = hashD b)
    (hsymm : ∀ a b, eqD a b = eqD b a) :
    ht_inv hashD eqD (ht_rehash hashD eqD t)
    ∧ List.Perm (ht_rehash hashD eqD t).buckets.flatten t.buckets.flatten
    ∧ (ht_rehash hashD eqD t).size = t.size
    ∧ ((ht_rehash hashD eqD t).nb_rehash = t.nb_rehash + 1 ↔
        t.mlf_num * t.nb_buckets ≤ t.size * t.mlf_den)
    ∧ (t.mlf_num * t.nb_buckets ≤ t.size * t.mlf_den →
        (ht_rehash hashD eqD t).nb_buckets = t.nb_buckets * 2)
    ∧ (t.size * t.mlf_den < t.mlf_num * t.nb_buckets → ht_rehash hashD eqD t = t) := by
  by_cases hcond : t.size * t.mlf_den < t.mlf_num * t.nb_buckets
  · have heq : ht_rehash hashD eqD t = t := by
      rw [ht_rehash, if_pos hcond]
    rw [heq]
    exact ⟨hinv, List.Perm.refl _, rfl, by omega, fun h => by omega, fun _ => rfl⟩
  · have hge : t.mlf_num * t.nb_buckets ≤ t.size * t.mlf_den := Nat.le_of_not_lt hcond
    have hfold := foldl_insert_raw hashD eqD (t.nb_buckets * 2) t.buckets.flatten
      (List.replicate (t.nb_buckets * 2) []) 0
      (raw_inv_empty hashD eqD _ (by
        obtain ⟨k, hk⟩ := hinv.pow2
        exact ⟨k + 1, by rw [hk]; ring⟩))
      (by
        intro a _ b hb
        rw [flatten_replicate_nil] at hb
        simp at hb)
      ((global_ne_of_raw_inv hinv hashEq hsymm).imp fun h => h.2)
    have hunf : ht_rehash hashD eqD t =
        { t with nb_buckets := t.nb_buckets * 2,
                 buckets := (t.buckets.flatten.foldl
                   (fun acc a => (insert_impl hashD eqD a acc.1 (t.nb_buckets * 2) acc.2).2)
                   (List.replicate (t.nb_buckets * 2) [], 0)).1,
                 size := (t.buckets.flatten.foldl
                   (fun acc a => (insert_impl hashD eqD a acc.1 (t.nb_buckets * 2) acc.2).2)
                   (List.replicate (t.nb_buckets * 2) [], 0)).2,
                 nb_rehash := t.nb_rehash + 1 } := by
      rw [ht_rehash, if_neg hcond]
    rw [hunf]
    have hperm : List.Perm (t.buckets.flatten.foldl
        (fun acc a => (insert_impl hashD eqD a acc.1 (t.nb_buckets * 2) acc.2).2)
        (List.replicate (t.nb_buckets * 2) [], 0)).1.flatten t.buckets.flatten := by
      refine List.Perm.trans hfold.2 ?_
      rw [flatten_replicate_nil, List.append_nil]
    refine ⟨hfold.1, hperm, ?_, iff_of_true rfl hge, fun _ => rfl, fun h => by omega⟩
    have h1 := hfold.1.hsize
    rw [h1, hperm.length_eq, hinv.hsize]

theorem np2_loop_pow2 (n fuel p : Nat) (hp : ∃ k, p = 2 ^ k) :
    ∃ k, np2_loop n fuel p = 2 ^ k := by
  induction fuel generalizing p with
  | zero => exact hp
  | succ f ih =>
    by_cases h : n ≤ p
    · simpa [np2_loop, h] using hp
    · simp only [np2_loop, if_neg h]
      obtain ⟨k, hk⟩ := hp
      exact ih _ ⟨k + 1, by rw [hk]; ring⟩

theorem next_power_of_2_pow2 (n : Nat) : ∃ k, next_power_of_2 n = 2 ^ k :=
  np2_loop_pow2 n n 1 ⟨0, rfl⟩

theorem ht_insert_spec {α : Type} {hashD : α → Nat} {eqD : α → α → Bool} {x : α}
    {t : hash_table α} (hinv : ht_inv hashD eqD t)
    (hashEq : ∀ a b, eqD a b = true → hashD a = hashD b)
    (hsymm : ∀ a b, eqD a b = eqD b a) :
    ht_inv hashD eqD (ht_insert hashD eqD x t).2
    ∧ List.Perm (ht_insert hashD eqD x t).2.buckets.flatten
        (ht_insert_mid hashD eqD x t).buckets.flatten
    ∧ (ht_insert hashD eqD x t).2.size = (ht_insert_mid hashD eqD x t).size
    ∧ ((ht_insert hashD eqD x t).2.nb_rehash = t.nb_rehash + 1 ↔
        t.mlf_num * t.nb_buckets ≤ (ht_insert_mid hashD eqD x t).size * t.mlf_den)
    ∧ (t.mlf_num * t.nb_buckets ≤ (ht_insert_mid hashD eqD x t).size * t.mlf_den →
        (ht_insert hashD eqD x t).2.nb_buckets = t.nb_buckets * 2)
    ∧ ((ht_insert_mid hashD eqD x t).size * t.mlf_den < t.mlf_num * t.nb_buckets →
        (ht_insert hashD eqD x t).2 = ht_insert_mid hashD eqD x t)
    ∧ ((ht_insert hashD eqD x t).1.2 = true →
        List.Perm (ht_insert_mid hashD eqD x t).buckets.flatten (x :: t.buckets.flatten))
    ∧ ((ht_insert hashD eqD x t).1.2 = false →
        ht_insert_mid hashD eqD x t = t ∧
        (ht_insert hashD eqD x t).1.1 ∈ t.buckets.flatten ∧
        eqD x (ht_insert hashD eqD x t).1.1 = true) := by
  have hmid := raw_inv_insert_impl (x := x) hinv
  have hmidinv : ht_inv hashD eqD (ht_insert_mid hashD eqD x t) := hmid.1
  have hre := ht_rehash_spec hmidinv hashEq hsymm
  have h2 : (ht_insert hashD eqD x t).2 = ht_rehash hashD eqD (ht_insert_mid hashD eqD x t) :=
    rfl
  have hmidfields : (ht_insert_mid hashD eqD x t).nb_buckets = t.nb_buckets ∧
      (ht_insert_mid hashD eqD x t).mlf_num = t.mlf_num ∧
      (ht_insert_mid hashD eqD x t).mlf_den = t.mlf_den ∧
      (ht_insert_mid hashD eqD x t).nb_rehash = t.nb_rehash := ⟨rfl, rfl, rfl, rfl⟩
  rw [h2]
  obtain ⟨hf1, hf2, hf3, hf4⟩ := hmidfields
  refine ⟨hre.1, hre.2.1, hre.2.2.1, ?_, ?_, ?_, ?_, ?_⟩
  · rw [← hf4, ← hf1, ← hf2, ← hf3]
    exact hre.2.2.2.1
  · intro h
    rw [hre.2.2.2.2.1 (by rw [hf1, hf2, hf3]; exact h), hf1]
  · intro h
    exact hre.2.2.2.2.2 (by rw [hf1, hf2, hf3]; exact h)
  · intro h
    exact (hmid.2.1 h)
  · intro h
    obtain ⟨hb, hs, hm, he⟩ := hmid.2.2 h
    refine ⟨?_, hm, he⟩
    show ({ t with buckets := _, size := _ } : hash_table α) = t
    rw [hb, hs]

theorem chain_erase_none {α : Type} {eqD : α → α → Bool} {x : α} {l : List α}
    (h : ∀ a ∈ l, eqD x a = false) : chain_erase eqD x l = (l, false) := by
  induction l with
  | nil => rfl
  | cons a r ih =>
    have ha := h a (List.mem_cons_self a r)
    simp only [chain_erase, ha, Bool.false_eq_true, if_false]
    rw [ih fun b hb => h b (List.mem_cons_of_mem a hb)]

theorem chain_erase_sublist {α : Type} (eqD : α → α → Bool) (x : α) (l : List α) :
    (chain_erase eqD x l).1.Sublist l := by
  induction l with
  | nil => exact List.Sublist.refl []
  | cons a r ih =>
    by_cases ha : eqD x a = true
    · simp only [chain_erase, if_pos ha]
      exact List.sublist_cons_self a r
    · simp only [chain_erase, if_neg ha]
      exact List.Sublist.cons₂ a ih

theorem chain_erase_length {α : Type} (eqD : α → α → Bool) (x : α) (l : List α) :
    ((chain_erase eqD x l).2 = true → (chain_erase eqD x l).1.length + 1 = l.length)
    ∧ ((chain_erase eqD x l).2 = false → (chain_erase eqD x l).1 = l) := by
  induction l with
  | nil => exact ⟨by simp [chain_erase], fun _ => rfl⟩
  | cons a r ih =>
    by_cases ha : eqD x a = true
    · simp only [chain_erase, if_pos ha]
      exact ⟨fun _ => by simp, by simp⟩
    · simp only [chain_erase, if_neg ha]
      refine ⟨fun h => ?_, fun h => ?_⟩
      · have := ih.1 h
        simp only [List.length_cons]
        omega
      · rw [ih.2 h]

theorem ht_erase_spec {α : Type} {hashD : α → Nat} {eqD : α → α → Bool} {x : α}
    {t : hash_table α} (hinv : ht_inv hashD eqD t) :
    ht_inv hashD eqD (ht_erase hashD eqD x t)
    ∧ (ht_erase hashD eqD x t).buckets.flatten.Sublist t.buckets.flatten := by
  have hpos : bucketIdx (hashD x) t.nb_buckets < t.buckets.length := by
    rw [hinv.blen]
    exact bucketIdx_lt _ _ hinv.pow2
  set pos := bucketIdx (hashD x) t.nb_buckets with hposdef
  have hsub : (chain_erase eqD x (t.buckets.getD pos [])).1.Sublist (t.buckets.getD pos []) :=
    chain_erase_sublist eqD x _
  have hflat : (ht_erase hashD eqD x t).buckets.flatten =
      (t.buckets.take pos).flatten ++ (chain_erase eqD x (t.buckets.getD pos [])).1 ++
      (t.buckets.drop (pos + 1)).flatten := by
    show (t.buckets.set pos _).flatten = _
    exact flatten_set t.buckets pos _ hpos
  have hflat0 : t.buckets.flatten =
      (t.buckets.take pos).flatten ++ t.buckets.getD pos [] ++
      (t.buckets.drop (pos + 1)).flatten := flatten_decomp t.buckets pos hpos
  have hflatsub : (ht_erase hashD eqD x t).buckets.flatten.Sublist t.buckets.flatten := by
    rw [hflat, hflat0]
    exact List.Sublist.append (List.Sublist.append (List.Sublist.refl _) hsub)
      (List.Sublist.refl _)
  have hbk : (ht_erase hashD eqD x t).buckets
      = t.buckets.set pos (chain_erase eqD x (t.buckets.getD pos [])).1 := rfl
  have hsz : (ht_erase hashD eqD x t).size
      = (if (chain_erase eqD x (t.buckets.getD pos [])).2 then t.size - 1 else t.size) := rfl
  refine ⟨⟨hinv.pow2, ?_, ?_, ?_, ?_⟩, hflatsub⟩
  · rw [hbk, List.length_set]
    exact hinv.blen
  · rw [hsz]
    cases hfound : (chain_erase eqD x (t.buckets.getD pos [])).2 with
    | false =>
      simp only [Bool.false_eq_true, if_false]
      rw [hinv.hsize, hflat, (chain_erase_length eqD x _).2 hfound, ← hflat0]
    | true =>
      simp only [if_true]
      have hlen := (chain_erase_length eqD x _).1 hfound
      rw [hinv.hsize, hflat, hflat0]
      simp only [List.length_append]
      omega
  · intro i hi a ha
    rw [hbk] at ha
    by_cases hieq : i = pos
    · subst hieq
      rw [getD_set_self t.buckets _ _ hpos] at ha
      exact hinv.placed pos hpos a (hsub.mem ha)
    · rw [getD_set_ne t.buckets _ i _ (fun he => hieq he.symm)] at ha
      rw [hbk, List.length_set] at hi
      exact hinv.placed i hi a ha
  · intro c hc
    rw [hbk] at hc
    rcases List.mem_or_eq_of_mem_set hc with h1 | h1
    · exact hinv.chains_ne c h1
    · subst h1
      exact (hinv.chains_ne _ (getD_mem t.buckets _ hpos)).sublist hsub

/-! ## Unification table lemmas -/

theorem mem_bucket_of_mem_flatten {α : Type} {hashD : α → Nat} {eqD : α → α → Bool}
    {n : Nat} {bs : List (List α)} {sz : Nat} (hinv : raw_inv hashD eqD n bs sz)
    {a : α} (ha : a ∈ bs.flatten) : a ∈ bs.getD (bucketIdx (hashD a) n) [] := by
  obtain ⟨c, hc, hac⟩ := List.mem_flatten.mp ha
  obtain ⟨i, hi, hci⟩ := List.mem_iff_getElem.mp hc
  have hgd : bs.getD i [] = c := by rw [List.getD_eq_getElem bs [] hi, hci]
  have hplace := hinv.placed i hi a (by rw [hgd]; exact hac)
  rw [hplace, hgd]
  exact hac

theorem ut_unique_iff {V : Type} {hashV : V → Nat} {beqV : V → V → Bool}
    {s : ut_state V} (hinv : ut_inv hashV beqV s)
    (hrefl : ∀ w, beqV w w = true)
    (hashEq : ∀ w w2, beqV w w2 = true → hashV w = hashV w2)
    (hsymm : ∀ w w2, beqV w w2 = beqV w2 w) :
    ∀ p ∈ s.table.buckets.flatten, ∀ q ∈ s.table.buckets.flatten,
      (beqV p.2 q.2 = true ↔ p.1 = q.1) := by
  have hglobal := global_ne_of_raw_inv hinv.tinv
    (fun p q h => hashEq p.2 q.2 h) (fun p q => hsymm p.2 q.2)
  have hsym : Symmetric (fun p q : Nat × V => ubeq beqV p q = false ∧ ubeq beqV q p = false) :=
    fun p q h => ⟨h.2, h.1⟩
  intro p hp q hq
  constructor
  · intro hbeq
    by_cases hpq : p = q
    · rw [hpq]
    · exact absurd hbeq (by simpa [ubeq] using (hglobal.forall hsym hp hq hpq).1)
  · intro haddr
    have := List.inj_on_of_nodup_map hinv.addr_nodup hp hq haddr
    rw [this]
    exact hrefl q.2

theorem ht_insert_finds_existing {V : Type} {hashV : V → Nat} {beqV : V → V → Bool}
    {s : ut_state V} (hinv : ut_inv hashV beqV s)
    (hrefl : ∀ w, beqV w w = true)
    (hashEq : ∀ w w2, beqV w w2 = true → hashV w = hashV w2)
    (hsymm : ∀ w w2, beqV w w2 = beqV w2 w)
    (htrans : ∀ w1 w2 w3, beqV w1 w2 = true → beqV w2 w3 = true → beqV w1 w3 = true)
    {a : Nat} {v : V} {p : Nat × V}
    (hp : p ∈ s.table.buckets.flatten) (hbeq : beqV v p.2 = true) :
    (ht_insert (uhash hashV) (ubeq beqV) (a, v) s.table).1 = (p, false) := by
  have hn := hinv.tinv.pow2
  have hchain : p ∈ s.table.buckets.getD
      (bucketIdx (uhash hashV (a, v)) s.table.nb_buckets) [] := by
    have h1 := mem_bucket_of_mem_flatten hinv.tinv hp
    have h2 : uhash hashV (a, v) = uhash hashV p := hashEq v p.2 hbeq
    rw [h2]
    exact h1
  have hfind : chain_find_eq (ubeq beqV) ((a, v))
      (s.table.buckets.getD (bucketIdx (uhash hashV (a, v)) s.table.nb_buckets) []) =
      some p := by
    refine chain_find_eq_unique hchain hbeq ?_
    intro q hq hqeq
    have hqmem : q ∈ s.table.buckets.flatten := by
      refine List.mem_flatten.mpr ⟨_, getD_mem s.table.buckets _ ?_, hq⟩
      rw [hinv.tinv.blen]
      exact bucketIdx_lt _ _ hn
    have hqp : beqV q.2 p.2 = true := htrans q.2 v p.2 (by rw [hsymm]; exact hqeq) hbeq
    have haddr := (ut_unique_iff hinv hrefl hashEq hsymm q hqmem p hp).mp hqp
    exact List.inj_on_of_nodup_map hinv.addr_nodup hqmem hp haddr
  show (insert_impl (uhash hashV) (ubeq beqV) (a, v) s.table.buckets s.table.nb_buckets
    s.table.size).1 = (p, false)
  rw [insert_impl_of_found _ _ _ _ _ _ hfind]

theorem ut_allocate_spec {V : Type} {hashV : V → Nat} {beqV : V → V → Bool}
    (sU extra : Nat) (s : ut_state V) (hinv : ut_inv hashV beqV s) :
    (∀ p ∈ s.table.buckets.flatten, p.1 ≠ (ut_allocate sU extra s).1)
    ∧ (ut_allocate sU extra s).1 < (ut_allocate sU extra s).2.next_addr
    ∧ (∀ c2, (ut_allocate sU extra s).2.m_cache = some c2 → c2 ≠ (ut_allocate sU extra s).1)
    ∧ ut_inv hashV beqV (ut_allocate sU extra s).2
    ∧ (ut_allocate sU extra s).2.table = s.table := by
  cases hc : s.m_cache with
  | none =>
    have he : ut_allocate sU extra s = (s.next_addr,
        { s with next_addr := s.next_addr + 1,
                 heap := (s.next_addr, sU + extra) :: s.heap }) := by
      simp only [ut_allocate, hc]
    rw [he]
    refine ⟨fun p hp => Nat.ne_of_lt (hinv.addr_lt p hp), Nat.lt_succ_self _, ?_, ?_, rfl⟩
    · intro c2 hc2
      have hc3 : s.m_cache = some c2 := hc2
      rw [hc] at hc3
      exact Option.noConfusion hc3
    · refine ⟨hinv.tinv, hinv.addr_nodup, ?_, ?_, ?_⟩
      · exact fun p hp => Nat.lt_succ_of_lt (hinv.addr_lt p hp)
      · intro a2 ha2
        have ha3 : s.m_cache = some a2 := ha2
        rw [hc] at ha3
        exact Option.noConfusion ha3
      · intro a2 ha2
        have ha3 : s.m_cache = some a2 := ha2
        rw [hc] at ha3
        exact Option.noConfusion ha3
  | some a =>
    by_cases hsz : sU + extra ≤ s.m_cache_size
    · have he : ut_allocate sU extra s = (a,
          { s with m_cache := none, m_cache_size := 0 }) := by
        simp only [ut_allocate, hc, if_pos hsz]
      rw [he]
      refine ⟨fun p hp => hinv.cache_not_mem a hc p hp, hinv.cache_lt a hc, ?_, ?_, rfl⟩
      · intro c2 hc2
        exact Option.noConfusion (show (none : Option Nat) = some c2 from hc2)
      · refine ⟨hinv.tinv, hinv.addr_nodup, hinv.addr_lt, ?_, ?_⟩
        · intro a2 ha2
          exact Option.noConfusion (show (none : Option Nat) = some a2 from ha2)
        · intro a2 ha2
          exact Option.noConfusion (show (none : Option Nat) = some a2 from ha2)
    · have he : ut_allocate sU extra s = (s.next_addr,
          { s with next_addr := s.next_addr + 1,
                   heap := (s.next_addr, sU + extra) :: s.heap }) := by
        simp only [ut_allocate, hc, if_neg hsz]
      rw [he]
      refine ⟨fun p hp => Nat.ne_of_lt (hinv.addr_lt p hp), Nat.lt_succ_self _, ?_, ?_, rfl⟩
      · intro c2 hc2
        have hc3 : s.m_cache = some c2 := hc2
        rw [hc] at hc3
        injection hc3 with hc4
        rw [← hc4]
        exact Nat.ne_of_lt (hinv.cache_lt a hc)
      · refine ⟨hinv.tinv, hinv.addr_nodup, ?_, ?_, ?_⟩
        · exact fun p hp => Nat.lt_succ_of_lt (hinv.addr_lt p hp)
        · intro a2 ha2
          have ha3 : s.m_cache = some a2 := ha2
          exact Nat.lt_succ_of_lt (hinv.cache_lt a2 ha3)
        · intro a2 ha2
          have ha3 : s.m_cache = some a2 := ha2
          exact hinv.cache_not_mem a2 ha3

theorem ut_unify_inv {V : Type} {hashV : V → Nat} {beqV : V → V → Bool} {sU : Nat}
    {a : Nat} {v : V} {extra : Nat} {s : ut_state V}
    (hinv : ut_inv hashV beqV s)
    (hashEq : ∀ w w2, beqV w w2 = true → hashV w = hashV w2)
    (hsymm : ∀ w w2, beqV w w2 = beqV w2 w)
    (ha_new : ∀ p ∈ s.table.buckets.flatten, p.1 ≠ a)
    (ha_lt : a < s.next_addr)
    (hcache_ne : ∀ c2, s.m_cache = some c2 → c2 ≠ a) :
    ut_inv hashV beqV (ut_unify hashV beqV sU a v extra s).2 := by
  have hspec := ht_insert_spec (x := (a, v)) hinv.tinv
    (fun p q h => hashEq p.2 q.2 h) (fun p q => hsymm p.2 q.2)
  set r := ht_insert (uhash hashV) (ubeq beqV) (a, v) s.table with hrdef
  have htinv : ht_inv (uhash hashV) (ubeq beqV) r.2 := hspec.1
  cases hins : r.1.2 with
  | true =>
    have hperm : List.Perm r.2.buckets.flatten ((a, v) :: s.table.buckets.flatten) :=
      List.Perm.trans hspec.2.1 (hspec.2.2.2.2.2.2.1 hins)
    have hnodup : (r.2.buckets.flatten.map Prod.fst).Nodup := by
      refine ((hperm.map Prod.fst).nodup_iff).mpr ?_
      refine List.nodup_cons.mpr ⟨?_, hinv.addr_nodup⟩
      intro hmem
      obtain ⟨p, hp, hpa⟩ := List.mem_map.mp hmem
      exact ha_new p hp hpa
    have hlt : ∀ p ∈ r.2.buckets.flatten, p.1 < s.next_addr := by
      intro p hp
      rcases List.mem_cons.mp (hperm.mem_iff.mp hp) with h1 | h1
      · rw [h1]
        exact ha_lt
      · exact hinv.addr_lt p h1
    simp only [ut_unify, ← hrdef, hins, if_true]
    refine ⟨htinv, hnodup, hlt, ?_, ?_⟩
    · intro a2 ha2
      have ha3 : s.m_cache = some a2 := ha2
      exact hinv.cache_lt a2 ha3
    · intro a2 ha2 p hp
      have ha3 : s.m_cache = some a2 := ha2
      have hp2 : p ∈ r.2.buckets.flatten := hp
      rcases List.mem_cons.mp (hperm.mem_iff.mp hp2) with h1 | h1
      · rw [h1]
        intro hcon
        exact hcache_ne a2 ha3 hcon.symm
      · exact hinv.cache_not_mem a2 ha3 p h1
  | false =>
    have hmid : ht_insert_mid (uhash hashV) (ubeq beqV) (a, v) s.table = s.table :=
      (hspec.2.2.2.2.2.2.2 hins).1
    have hperm : List.Perm r.2.buckets.flatten s.table.buckets.flatten := by
      have := hspec.2.1
      rw [hmid] at this
      exact this
    have hnodup : (r.2.buckets.flatten.map Prod.fst).Nodup :=
      ((hperm.map Prod.fst).nodup_iff).mpr hinv.addr_nodup
    have hlt : ∀ p ∈ r.2.buckets.flatten, p.1 < s.next_addr :=
      fun p hp => hinv.addr_lt p (hperm.mem_iff.mp hp)
    have hnm : ∀ p ∈ r.2.buckets.flatten, p.1 ≠ a :=
      fun p hp => ha_new p (hperm.mem_iff.mp hp)
    by_cases hsz : s.m_cache_size < sU + extra
    · cases hc : s.m_cache with
      | some old =>
        simp only [ut_unify, ← hrdef, hins, Bool.false_eq_true, if_false, if_pos hsz, hc]
        refine ⟨htinv, hnodup, hlt, ?_, ?_⟩
        · intro a2 ha2
          have ha3 : some a = some a2 := ha2
          injection ha3 with h2
          rw [← h2]
          exact ha_lt
        · intro a2 ha2 p hp
          have ha3 : some a = some a2 := ha2
          injection ha3 with h2
          rw [← h2]
          exact hnm p hp
      | none =>
        simp only [ut_unify, ← hrdef, hins, Bool.false_eq_true, if_false, if_pos hsz, hc]
        refine ⟨htinv, hnodup, hlt, ?_, ?_⟩
        · intro a2 ha2
          have ha3 : some a = some a2 := ha2
          injection ha3 with h2
          rw [← h2]
          exact ha_lt
        · intro a2 ha2 p hp
          have ha3 : some a = some a2 := ha2
          injection ha3 with h2
          rw [← h2]
          exact hnm p hp
    · simp only [ut_unify, ← hrdef, hins, Bool.false_eq_true, if_false, if_neg hsz]
      refine ⟨htinv, hnodup, hlt, ?_, ?_⟩
      · intro a2 ha2
        have ha3 : s.m_cache = some a2 := ha2
        exact hinv.cache_lt a2 ha3
      · intro a2 ha2 p hp
        have ha3 : s.m_cache = some a2 := ha2
        exact hinv.cache_not_mem a2 ha3 p (hperm.mem_iff.mp hp)

theorem ut_make_inv {V : Type} {hashV : V → Nat} {beqV : V → V → Bool} {sU : Nat}
    (v : V) (extra : Nat) {s : ut_state V} (hinv : ut_inv hashV beqV s)
    (hashEq : ∀ w w2, beqV w w2 = true → hashV w = hashV w2)
    (hsymm : ∀ w w2, beqV w w2 = beqV w2 w) :
    ut_inv hashV beqV (ut_make hashV beqV sU v extra s).2 := by
  have hal := ut_allocate_spec sU extra s hinv
  show ut_inv hashV beqV (ut_unify hashV beqV sU (ut_allocate sU extra s).1 v extra
    (ut_allocate sU extra s).2).2
  refine ut_unify_inv hal.2.2.2.1 hashEq hsymm ?_ hal.2.1 hal.2.2.1
  intro p hp
  rw [hal.2.2.2.2] at hp
  exact hal.1 p hp

theorem ut_erase_inv {V : Type} {hashV : V → Nat} {beqV : V → V → Bool}
    (a : Nat) (v : V) {s : ut_state V} (hinv : ut_inv hashV beqV s) :
    ut_inv hashV beqV (ut_erase hashV beqV a v s) := by
  have hspec := ht_erase_spec (x := ((a, v) : Nat × V)) hinv.tinv
  refine ⟨hspec.1, ?_, ?_, fun a2 ha2 => hinv.cache_lt a2 ha2, ?_⟩
  · exact hinv.addr_nodup.sublist (hspec.2.map Prod.fst)
  · exact fun p hp => hinv.addr_lt p (hspec.2.mem hp)
  · exact fun a2 ha2 p hp => hinv.cache_not_mem a2 ha2 p (hspec.2.mem hp)

/-! ## Operation cache lemmas -/

theorem chain_lookup_notFound {Op R : Type} {beqOp : Op → Op → Bool}
    {store : List (Nat × Op × R)} {op : Op} {ch : List Nat}
    (hlive : ∀ i ∈ ch, (store_find store i).isSome)
    (hno : ∀ i ∈ ch, ∀ e, store_find store i = some e → beqOp op e.1 = false) :
    chain_lookup beqOp store op ch = .notFound := by
  induction ch with
  | nil => rfl
  | cons i rest ih =>
    cases hf : store_find store i with
    | none =>
      have := hlive i (List.mem_cons_self i rest)
      rw [hf] at this
      simp at this
    | some e =>
      have hne := hno i (List.mem_cons_self i rest) e hf
      simp only [chain_lookup, hf, hne, Bool.false_eq_true, if_false]
      exact ih (fun j hj => hlive j (List.mem_cons_of_mem i hj))
        (fun j hj f hjf => hno j (List.mem_cons_of_mem i hj) f hjf)

theorem chain_lookup_found {Op R : Type} {beqOp : Op → Op → Bool}
    {store : List (Nat × Op × R)} {op : Op} {ch : List Nat} {i : Nat} {e : Op × R}
    (hlive : ∀ j ∈ ch, (store_find store j).isSome)
    (hi : i ∈ ch) (he : store_find store i = some e) (hmatch : beqOp op e.1 = true)
    (honly : ∀ j ∈ ch, ∀ f, store_find store j = some f → beqOp op f.1 = true → j = i) :
    chain_lookup beqOp store op ch = .found i e := by
  induction ch with
  | nil => simp at hi
  | cons j rest ih =>
    cases hf : store_find store j with
    | none =>
      have := hlive j (List.mem_cons_self j rest)
      rw [hf] at this
      simp at this
    | some f =>
      by_cases hm : beqOp op f.1 = true
      · have hji := honly j (List.mem_cons_self j rest) f hf hm
        subst hji
        rw [he] at hf
        injection hf with hf2
        simp only [chain_lookup, he, hm, if_true, hf2]
      · have hmb : beqOp op f.1 = false := by
          cases hb : beqOp op f.1
          · rfl
          · exact absurd hb hm
        simp only [chain_lookup, hf, hmb, Bool.false_eq_true, if_false]
        have hij : i ≠ j := by
          intro hcon
          rw [hcon, hf] at he
          injection he with he2
          rw [← he2] at hmatch
          exact hm hmatch
        rcases List.mem_cons.mp hi with h1 | h1
        · exact absurd h1 hij
        · exact ih (fun k hk => hlive k (List.mem_cons_of_mem j hk)) h1
            (fun k hk f2 hkf2 => honly k (List.mem_cons_of_mem j hk) f2 hkf2)

theorem chain_remove_found {Op R : Type} {beqOp : Op → Op → Bool}
    {store : List (Nat × Op × R)} {k : Op} {ch : List Nat} {i : Nat} {e : Op × R}
    (hlive : ∀ j ∈ ch, (store_find store j).isSome)
    (hi : i ∈ ch) (he : store_find store i = some e) (hmatch : beqOp k e.1 = true)
    (honly : ∀ j ∈ ch, ∀ f, store_find store j = some f → beqOp k f.1 = true → j = i) :
    chain_remove beqOp store k ch = some (ch.erase i, some i) := by
  induction ch with
  | nil => simp at hi
  | cons j rest ih =>
    cases hf : store_find store j with
    | none =>
      have := hlive j (List.mem_cons_self j rest)
      rw [hf] at this
      simp at this
    | some f =>
      by_cases hm : beqOp k f.1 = true
      · have hji := honly j (List.mem_cons_self j rest) f hf hm
        subst hji
        simp only [chain_remove, hf, hm, if_true]
        rw [List.erase_cons_head]
      · have hmb : beqOp k f.1 = false := by
          cases hb : beqOp k f.1
          · rfl
          · exact absurd hb hm
        have hij : i ≠ j := by
          intro hcon
          rw [hcon, hf] at he
          injection he with he2
          rw [← he2] at hmatch
          exact hm hmatch
        rcases List.mem_cons.mp hi with h1 | h1
        · exact absurd h1 hij
        · have hrec := ih (fun x hx => hlive x (List.mem_cons_of_mem j hx)) h1
            (fun x hx f2 hxf2 => honly x (List.mem_cons_of_mem j hx) f2 hxf2)
          simp only [chain_remove, hf, hmb, Bool.false_eq_true, if_false, hrec]
          rw [List.erase_cons_tail]
          simp [Ne.symm hij]

theorem store_find_eraseP_ne {β : Type} {l : List (Nat × β)} {i j : Nat} (hne : j ≠ i) :
    store_find (l.eraseP (fun q => q.1 == i)) j = store_find l j := by
  induction l with
  | nil => rfl
  | cons p rest ih =>
    by_cases hp : p.1 = i
    · have hpb : (p.1 == i) = true := by simpa using hp
      simp only [List.eraseP_cons, hpb, cond_true]
      have hpj : ¬ p.1 = j := by omega
      rw [store_find, if_neg hpj]
    · have hpb : (p.1 == i) = false := by simpa using hp
      simp only [List.eraseP_cons, hpb, cond_false]
      by_cases hpj : p.1 = j
      · rw [store_find, if_pos hpj, store_find, if_pos hpj]
      · rw [store_find, if_neg hpj, store_find, if_neg hpj]
        exact ih

theorem store_find_eraseP_self {β : Type} {l : List (Nat × β)} {i : Nat}
    (hnd : (l.map Prod.fst).Nodup) :
    store_find (l.eraseP (fun q => q.1 == i)) i = none := by
  induction l with
  | nil => rfl
  | cons p rest ih =>
    simp only [List.map_cons, List.nodup_cons] at hnd
    by_cases hp : p.1 = i
    · have hpb : (p.1 == i) = true := by simpa using hp
      simp only [List.eraseP_cons, hpb, cond_true]
      cases hfind : store_find rest i with
      | none => rfl
      | some b =>
        have hmm := store_find_some_mem hfind
        have : i ∈ rest.map Prod.fst := List.mem_map.mpr ⟨(i, b), hmm, rfl⟩
        exact absurd (hp ▸ this) hnd.1
    · have hpb : (p.1 == i) = false := by simpa using hp
      simp only [List.eraseP_cons, hpb, cond_false]
      rw [store_find, if_neg hp]
      exact ih hnd.2

theorem wf_mem_bucket {Op R : Type} {hashOp : Op → Nat} {beqOp : Op → Op → Bool}
    {eval : Op → Option R} {c : cache_state Op R}
    (hwf : cacheWF hashOp beqOp eval c) {i : Nat} {e : Op × R}
    (hmem : (i, e) ∈ c.store) :
    i ∈ c.buckets.getD (bucketIdx (hashOp e.1) c.nb_buckets) [] := by
  have hifl : i ∈ c.buckets.flatten := hwf.store_ids (i, e) hmem
  obtain ⟨cch, hc, hic⟩ := List.mem_flatten.mp hifl
  obtain ⟨bi, hbi, hcbi⟩ := List.mem_iff_getElem.mp hc
  have hgd : c.buckets.getD bi [] = cch := by rw [List.getD_eq_getElem _ [] hbi, hcbi]
  have hplaced : bucketIdx (hashOp e.1) c.nb_buckets = bi :=
    hwf.placed bi hbi i (by rw [hgd]; exact hic) (i, e) hmem rfl
  rw [← hplaced] at hgd
  rw [hgd]
  exact hic

theorem wf_chain_live {Op R : Type} {hashOp : Op → Nat} {beqOp : Op → Op → Bool}
    {eval : Op → Option R} {c : cache_state Op R}
    (hwf : cacheWF hashOp beqOp eval c) {bi : Nat} :
    ∀ j ∈ c.buckets.getD bi [], (store_find c.store j).isSome := by
  intro j hj
  by_cases hbi : bi < c.buckets.length
  · exact hwf.chain_ids j (List.mem_flatten.mpr ⟨_, getD_mem c.buckets bi hbi, hj⟩)
  · rw [List.getD_eq_default _ [] (Nat.le_of_not_lt hbi)] at hj
    simp at hj

theorem wf_chain_lookup_hit {Op R : Type} {hashOp : Op → Nat} {beqOp : Op → Op → Bool}
    {eval : Op → Option R} {c : cache_state Op R} {op : Op} {i : Nat} {e : Op × R}
    (hwf : cacheWF hashOp beqOp eval c)
    (hsymm : ∀ a b, beqOp a b = beqOp b a)
    (htrans : ∀ a b d, beqOp a b = true → beqOp b d = true → beqOp a d = true)
    (hbeqhash : ∀ a b, beqOp a b = true → hashOp a = hashOp b)
    (hmem : (i, e) ∈ c.store) (hmatch : beqOp op e.1 = true) :
    chain_lookup beqOp c.store op
      (c.buckets.getD (bucketIdx (hashOp op) c.nb_buckets) []) = .found i e := by
  have hbucket : bucketIdx (hashOp op) c.nb_buckets = bucketIdx (hashOp e.1) c.nb_buckets := by
    rw [hbeqhash op e.1 hmatch]
  refine chain_lookup_found (wf_chain_live hwf) ?_
    (store_find_eq_of_mem hwf.keys_nodup hmem) hmatch ?_
  · rw [hbucket]
    exact wf_mem_bucket hwf hmem
  · intro j hj f hjf hjm
    by_contra hne
    have hfmem := store_find_some_mem hjf
    have hef : beqOp f.1 e.1 = true := htrans f.1 op e.1 (by rw [hsymm]; exact hjm) hmatch
    have := hwf.ops_ne (j, f) hfmem (i, e) hmem (by simpa using hne)
    rw [this] at hef
    exact Bool.false_ne_true hef

theorem wf_chain_lookup_miss {Op R : Type} {hashOp : Op → Nat} {beqOp : Op → Op → Bool}
    {eval : Op → Option R} {c : cache_state Op R} {op : Op} {bi : Nat}
    (hwf : cacheWF hashOp beqOp eval c)
    (hnomatch : ∀ p ∈ c.store, beqOp op p.2.1 = false) :
    chain_lookup beqOp c.store op (c.buckets.getD bi []) = .notFound := by
  refine chain_lookup_notFound (wf_chain_live hwf) ?_
  intro j hj f hjf
  exact hnomatch (j, f) (store_find_some_mem hjf)

theorem chain_lookup_found_inv {Op R : Type} {beqOp : Op → Op → Bool}
    {store : List (Nat × Op × R)} {op : Op} {ch : List Nat} {i : Nat} {e : Op × R}
    (h : chain_lookup beqOp store op ch = .found i e) :
    store_find store i = some e ∧ beqOp op e.1 = true ∧ i ∈ ch := by
  induction ch with
  | nil => simp [chain_lookup] at h
  | cons j rest ih =>
    cases hf : store_find store j with
    | none => simp [chain_lookup, hf] at h
    | some f =>
      by_cases hm : beqOp op f.1 = true
      · simp only [chain_lookup, hf, hm, if_true] at h
        injection h with h1 h2
        subst h1
        subst h2
        exact ⟨hf, hm, List.mem_cons_self j rest⟩
      · have hmb : beqOp op f.1 = false := by
          cases hb : beqOp op f.1
          · rfl
          · exact absurd hb hm
        simp only [chain_lookup, hf, hmb, Bool.false_eq_true, if_false] at h
        have := ih h
        exact ⟨this.1, this.2.1, List.mem_cons_of_mem j this.2.2⟩

theorem cache_lookup_filtered {Op R : Type} (hashOp : Op → Nat) (beqOp : Op → Op → Bool)
    (filters : List (Op → Bool)) (eval : Op → Option R) (c : cache_state Op R) (op : Op)
    (hrej : apply_filters filters op = false) :
    cache_lookup hashOp beqOp filters eval c op =
      (match eval op with
       | none => (.opFailed, { c with filtered := c.filtered + 1 })
       | some r => (.ok r, { c with filtered := c.filtered + 1 })) := by
  rw [cache_lookup, if_pos hrej]

theorem cache_lookup_hit {Op R : Type} {hashOp : Op → Nat} {beqOp : Op → Op → Bool}
    {filters : List (Op → Bool)} {eval eval0 : Op → Option R} {c : cache_state Op R}
    {op : Op} {i : Nat} {e : Op × R}
    (hwf : cacheWF hashOp beqOp eval0 c)
    (hsymm : ∀ a b, beqOp a b = beqOp b a)
    (htrans : ∀ a b d, beqOp a b = true → beqOp b d = true → beqOp a d = true)
    (hbeqhash : ∀ a b, beqOp a b = true → hashOp a = hashOp b)
    (hacc : apply_filters filters op = true)
    (hmem : (i, e) ∈ c.store) (hmatch : beqOp op e.1 = true) :
    cache_lookup hashOp beqOp filters eval c op =
      (.ok e.2, { c with hits := c.hits + 1, lru := move_to_back i c.lru }) := by
  have hfound := wf_chain_lookup_hit hwf hsymm htrans hbeqhash hmem hmatch
  rw [cache_lookup, if_neg (by rw [hacc]; simp)]
  rw [hfound]

theorem cache_lookup_miss_fail {Op R : Type} {hashOp : Op → Nat} {beqOp : Op → Op → Bool}
    {filters : List (Op → Bool)} {eval eval0 : Op → Option R} {c : cache_state Op R} {op : Op}
    (hwf : cacheWF hashOp beqOp eval0 c)
    (hacc : apply_filters filters op = true)
    (hnomatch : ∀ p ∈ c.store, beqOp op p.2.1 = false)
    (hfail : eval op = none) :
    cache_lookup hashOp beqOp filters eval c op =
      (.opFailed, { c with misses := c.misses + 1 }) := by
  have hnf := @wf_chain_lookup_miss _ _ _ _ _ _ _ (bucketIdx (hashOp op) c.nb_buckets) hwf hnomatch
  rw [cache_lookup, if_neg (by rw [hacc]; simp)]
  rw [hnf, hfail]

theorem cleanup_not_full {Op R : Type} (hashOp : Op → Nat) (beqOp : Op → Op → Bool)
    (d : cache_state Op R) (h : ¬ d.size = d.max_size) :
    cleanup_if_full hashOp beqOp d = some d := by
  rw [cleanup_if_full, if_neg h]

theorem cleanup_full_eq {Op R : Type} (hashOp : Op → Nat) (beqOp : Op → Op → Bool)
    (d : cache_state Op R) (oldest : Nat) (rest : List Nat) (oe : Op × R)
    (hfull : d.size = d.max_size) (hlru : d.lru = oldest :: rest)
    (hoe : store_find d.store oldest = some oe)
    (hrm : chain_remove beqOp d.store oe.1
        (d.buckets.getD (bucketIdx (hashOp oe.1) d.nb_buckets) []) =
      some ((d.buckets.getD (bucketIdx (hashOp oe.1) d.nb_buckets) []).erase oldest,
        some oldest)) :
    cleanup_if_full hashOp beqOp d = some
      { d with buckets := d.buckets.set (bucketIdx (hashOp oe.1) d.nb_buckets)
                 ((d.buckets.getD (bucketIdx (hashOp oe.1) d.nb_buckets) []).erase oldest),
               size := d.size - 1,
               store := d.store.eraseP (fun q => q.1 == oldest),
               free := oldest :: d.free,
               lru := rest,
               discarded := d.discarded + 1 } := by
  rw [cleanup_if_full, if_pos hfull, hlru]
  have hepos : bucketIdx (entry_hash hashOp oe) d.nb_buckets
      = bucketIdx (hashOp oe.1) d.nb_buckets := rfl
  simp only [hoe, hepos, hrm, Option.isSome_some, if_true]

theorem wf_chain_remove_oldest {Op R : Type} {hashOp : Op → Nat} {beqOp : Op → Op → Bool}
    {eval : Op → Option R} {c : cache_state Op R} {oldest : Nat} {oe : Op × R}
    (hwf : cacheWF hashOp beqOp eval c)
    (hrefl : ∀ a, beqOp a a = true)
    (hoe : store_find c.store oldest = some oe) :
    chain_remove beqOp c.store oe.1
        (c.buckets.getD (bucketIdx (hashOp oe.1) c.nb_buckets) []) =
      some ((c.buckets.getD (bucketIdx (hashOp oe.1) c.nb_buckets) []).erase oldest,
        some oldest) := by
  have hmem := store_find_some_mem hoe
  refine chain_remove_found (wf_chain_live hwf) (wf_mem_bucket hwf hmem) hoe (hrefl oe.1) ?_
  intro j hj f hjf hjm
  by_contra hne
  have hfmem := store_find_some_mem hjf
  have := hwf.ops_ne (oldest, oe) hmem (j, f) hfmem (by simpa using fun he => hne he.symm)
  rw [this] at hjm
  exact Bool.false_ne_true hjm

theorem cache_lookup_evict_eq {Op R : Type} {hashOp : Op → Nat} {beqOp : Op → Op → Bool}
    {filters : List (Op → Bool)} {eval : Op → Option R} {c : cache_state Op R}
    {op : Op} {res : R} {oldest : Nat} {rest : List Nat} {oe : Op × R}
    (hwf : cacheWF hashOp beqOp eval c)
    (hrefl : ∀ a, beqOp a a = true)
    (hacc : apply_filters filters op = true)
    (hnomatch : ∀ p ∈ c.store, beqOp op p.2.1 = false)
    (hres : eval op = some res)
    (hfull : c.size = c.max_size)
    (hlru : c.lru = oldest :: rest)
    (hoe : store_find c.store oldest = some oe) :
    cache_lookup hashOp beqOp filters eval c op = (.ok res,
      { c with
          misses := c.misses + 1,
          discarded := c.discarded + 1,
          buckets := (c.buckets.set (bucketIdx (hashOp oe.1) c.nb_buckets)
              ((c.buckets.getD (bucketIdx (hashOp oe.1) c.nb_buckets) []).erase oldest)).set
            (bucketIdx (hashOp op) c.nb_buckets)
            (((c.buckets.set (bucketIdx (hashOp oe.1) c.nb_buckets)
              ((c.buckets.getD (bucketIdx (hashOp oe.1) c.nb_buckets) []).erase
                oldest)).getD (bucketIdx (hashOp op) c.nb_buckets) []) ++ [oldest]),
          size := c.size - 1 + 1,
          store := (oldest, op, res) :: c.store.eraseP (fun q => q.1 == oldest),
          free := c.free,
          lru := rest ++ [oldest] }) := by
  have hnf := @wf_chain_lookup_miss _ _ _ _ _ _ _ (bucketIdx (hashOp op) c.nb_buckets) hwf hnomatch
  have hrm := wf_chain_remove_oldest hwf hrefl hoe
  rw [cache_lookup, if_neg (by rw [hacc]; simp)]
  rw [hnf, hres,
    cleanup_full_eq hashOp beqOp { c with misses := c.misses + 1 } oldest rest oe hfull hlru
      hoe hrm]
  rfl

theorem commit_entry_nil {Op R : Type} (c : cache_state Op R) (op : Op) (res : R)
    (pos : Nat) (h : c.free = []) : commit_entry c op res pos = (.corrupt, c) := by
  rw [commit_entry.eq_def, h]

theorem commit_entry_cons {Op R : Type} (c : cache_state Op R) (op : Op) (res : R)
    (pos slot : Nat) (rest : List Nat) (h : c.free = slot :: rest) :
    commit_entry c op res pos = (.ok res,
      { c with free := rest,
               store := (slot, op, res) :: c.store,
               lru := c.lru ++ [slot],
               buckets := c.buckets.set pos ((c.buckets.getD pos []) ++ [slot]),
               size := c.size + 1 }) := by
  rw [commit_entry.eq_def, h]

theorem cache_lookup_notFound_eq {Op R : Type} {hashOp : Op → Nat} {beqOp : Op → Op → Bool}
    {filters : List (Op → Bool)} (eval : Op → Option R) {c : cache_state Op R} {op : Op}
    (hacc : apply_filters filters op = true)
    (hscan : chain_lookup beqOp c.store op
      (c.buckets.getD (bucketIdx (hashOp op) c.nb_buckets) []) = .notFound) :
    cache_lookup hashOp beqOp filters eval c op =
      match eval op with
      | none => (.opFailed, { c with misses := c.misses + 1 })
      | some res =>
        match cleanup_if_full hashOp beqOp { c with misses := c.misses + 1 } with
        | none => (.corrupt, { c with misses := c.misses + 1 })
        | some c2 => commit_entry c2 op res (bucketIdx (hashOp op) c.nb_buckets) := by
  rw [cache_lookup, if_neg (by rw [hacc]; simp), hscan]

theorem cache_lookup_ok_eval {Op R : Type} {hashOp : Op → Nat} {beqOp : Op → Op → Bool}
    {filters : List (Op → Bool)} {eval : Op → Option R} {c : cache_state Op R}
    {op : Op} {r : R} {c2 : cache_state Op R}
    (hwf : cacheWF hashOp beqOp eval c)
    (hpure : ∀ a b, beqOp a b = true → eval a = eval b)
    (h : cache_lookup hashOp beqOp filters eval c op = (.ok r, c2)) :
    eval op = some r := by
  by_cases hf : apply_filters filters op = false
  · rw [cache_lookup, if_pos hf] at h
    cases he : eval op with
    | none =>
      rw [he] at h
      simp only [] at h
      injection h with h1 _
      exact LookupResult.noConfusion h1
    | some r2 =>
      rw [he] at h
      simp only [] at h
      injection h with h1 _
      injection h1 with h3
      rw [h3]
  · have hacc : apply_filters filters op = true := by
      cases ha : apply_filters filters op
      · exact absurd ha hf
      · rfl
    cases hscan : chain_lookup beqOp c.store op
        (c.buckets.getD (bucketIdx (hashOp op) c.nb_buckets) []) with
    | stale =>
      rw [cache_lookup, if_neg hf, hscan] at h
      simp only [] at h
      injection h with h1 _
      exact LookupResult.noConfusion h1
    | found i e =>
      rw [cache_lookup, if_neg hf, hscan] at h
      simp only [] at h
      injection h with h1 _
      injection h1 with h3
      have hinvf := chain_lookup_found_inv hscan
      have hmem := store_find_some_mem hinvf.1
      have hre := hwf.results_ok (i, e) hmem
      have hpe := hpure op e.1 hinvf.2.1
      rw [hpe, hre, h3]
    | notFound =>
      rw [cache_lookup_notFound_eq eval hacc hscan] at h
      cases he : eval op with
      | none =>
        rw [he] at h
        simp only [] at h
        injection h with h1 _
        exact LookupResult.noConfusion h1
      | some res =>
        rw [he] at h
        simp only [] at h
        cases hcl : cleanup_if_full hashOp beqOp { c with misses := c.misses + 1 } with
        | none =>
          rw [hcl] at h
          simp only [] at h
          injection h with h1 _
          exact LookupResult.noConfusion h1
        | some c3 =>
          rw [hcl] at h
          simp only [] at h
          cases hfr : c3.free with
          | nil =>
            rw [commit_entry_nil c3 op res _ hfr] at h
            injection h with h1 _
            exact LookupResult.noConfusion h1
          | cons slot rest2 =>
            rw [commit_entry_cons c3 op res _ slot rest2 hfr] at h
            injection h with h1 _
            injection h1 with h3
            rw [h3]

theorem cache_lookup_size_le {Op R : Type} {hashOp : Op → Nat} {beqOp : Op → Op → Bool}
    {filters : List (Op → Bool)} {eval eval2 : Op → Option R} {c : cache_state Op R}
    (hwf : cacheWF hashOp beqOp eval c)
    (hrefl : ∀ a, beqOp a a = true) (op : Op) :
    (cache_lookup hashOp beqOp filters eval2 c op).2.size ≤ c.max_size := by
  by_cases hf : apply_filters filters op = false
  · rw [cache_lookup, if_pos hf]
    cases he : eval2 op
    · exact hwf.size_le
    · exact hwf.size_le
  · have hacc : apply_filters filters op = true := by
      cases ha : apply_filters filters op
      · exact absurd ha hf
      · rfl
    cases hscan : chain_lookup beqOp c.store op
        (c.buckets.getD (bucketIdx (hashOp op) c.nb_buckets) []) with
    | stale =>
      rw [cache_lookup, if_neg hf, hscan]
      exact hwf.size_le
    | found i e =>
      rw [cache_lookup, if_neg hf, hscan]
      exact hwf.size_le
    | notFound =>
      rw [cache_lookup_notFound_eq eval2 hacc hscan]
      cases he : eval2 op with
      | none => exact hwf.size_le
      | some res =>
        simp only []
        by_cases hfull : c.size = c.max_size
        · by_cases hmax : c.max_size = 0
          · have hlru : c.lru = [] := by
              have hlen : c.lru.length = 0 := by
                rw [hwf.lru_perm.length_eq, ← hwf.hsize, hfull, hmax]
              exact List.eq_nil_of_length_eq_zero hlen
            have hcl : cleanup_if_full hashOp beqOp { c with misses := c.misses + 1 }
                = none := by
              rw [cleanup_if_full, if_pos hfull, hlru]
            rw [hcl]
            exact hwf.size_le
          · have hlen : 0 < c.lru.length := by
              rw [hwf.lru_perm.length_eq, ← hwf.hsize, hfull]
              omega
            obtain ⟨oldest, rest, hlru⟩ : ∃ o r2, c.lru = o :: r2 := by
              cases hl : c.lru with
              | nil => rw [hl] at hlen; simp at hlen
              | cons o r2 => exact ⟨o, r2, rfl⟩
            have holdfl : oldest ∈ c.buckets.flatten :=
              hwf.lru_perm.mem_iff.mp (by rw [hlru]; exact List.mem_cons_self _ _)
            have hsome := hwf.chain_ids oldest holdfl
            obtain ⟨oe, hoe⟩ : ∃ oe, store_find c.store oldest = some oe := by
              cases hsf : store_find c.store oldest with
              | none => rw [hsf] at hsome; simp at hsome
              | some oe => exact ⟨oe, rfl⟩
            have hrm := wf_chain_remove_oldest hwf hrefl hoe
            rw [cleanup_full_eq hashOp beqOp { c with misses := c.misses + 1 }
              oldest rest oe hfull hlru hoe hrm]
            show c.size - 1 + 1 <= c.max_size
            omega
        · rw [cleanup_not_full hashOp beqOp { c with misses := c.misses + 1 } hfull]
          cases hfr : c.free with
          | nil => exact hwf.size_le
          | cons slot rest2 =>
            show c.size + 1 <= c.max_size
            have := hwf.size_le
            omega

/-! ## Facts about the concrete Nat instances, used to discharge the client contract -/

theorem natBeqRefl (a : Nat) : Nat.beq a a = true := by simp

theorem natBeqSymm (a b : Nat) : Nat.beq a b = Nat.beq b a := by
  cases h1 : Nat.beq a b <;> cases h2 : Nat.beq b a <;> simp_all

theorem natBeqTrans (a b d : Nat) (h1 : Nat.beq a b = true) (h2 : Nat.beq b d = true) :
    Nat.beq a d = true := by
  simp at h1 h2 ⊢
  omega

theorem natBeqHash (a b : Nat) (h : Nat.beq a b = true) : natHash a = natHash b := by
  simp at h
  rw [h]

theorem natBeqPure (a b : Nat) (h : Nat.beq a b = true) : natEval a = natEval b := by
  simp at h
  rw [h]

/-! ## The claims -/

/-- Claim C9: hash consistency of the wrapper types (P7): the hash of a handle is the seed
of its stored pointer value, i.e. the hash derived from that pointer value; the hash of a
unique wrapper is the hash of its payload; the hash of a cache entry is the hash of its
stored operation. -/
theorem hash_consistency {T Op R : Type} (hashT : T → Nat) (hashAddr : Nat → Nat)
    (hashOp : Op → Nat) :
    (∀ p : ptr_handle, ptr_hash hashAddr p = hashAddr p.m_x)
    ∧ (∀ u : unique_wrap T, unique_hash hashT u = hashT u.data)
    ∧ (∀ e : Op × R, entry_hash hashOp e = hashOp e.1) :=
  ⟨fun _ => rfl, fun _ => rfl, fun _ => rfl⟩

/-- Claim C6: the filters are applied in declaration order with short-circuit conjunction
(the defining equations of apply_filters); when some filter rejects the operation, the
lookup increments filtered by exactly one, invokes the operation directly and returns its
outcome, and every other piece of cache state — hash table, LRU list, pool free list, size
and the hits/misses/discarded counters — is unchanged. -/
theorem filter_transparency {Op R : Type} (hashOp : Op → Nat) (beqOp : Op → Op → Bool)
    (filters : List (Op → Bool)) (eval : Op → Option R) (c : cache_state Op R) (op : Op)
    (hrej : apply_filters filters op = false) :
    cache_lookup hashOp beqOp filters eval c op =
      (match eval op with
       | none => (.opFailed, { c with filtered := c.filtered + 1 })
       | some r => (.ok r, { c with filtered := c.filtered + 1 }))
    ∧ (∀ (f : Op → Bool) (fs : List (Op → Bool)) (o : Op),
        apply_filters (f :: fs) o = (f o && apply_filters fs o))
    ∧ (∀ o : Op, apply_filters ([] : List (Op → Bool)) o = true) :=
  ⟨cache_lookup_filtered hashOp beqOp filters eval c op hrej,
   fun _ _ _ => rfl, fun _ => rfl⟩

theorem filter_transparency_witness :
    cache_lookup natHash Nat.beq [fun n => decide (n % 2 = 0)] natEval cW1 3 =
      (.ok 4, { cW1 with filtered := cW1.filtered + 1 }) := by
  have h := (filter_transparency natHash Nat.beq [fun n => decide (n % 2 = 0)] natEval
    cW1 3 (by decide)).1
  rw [h]
  decide

/-- Claim C4: when the operation of a non-filtered lookup that missed fails (throws), the
failure propagates to the caller and the resulting cache state is exactly the previous
state with misses incremented once — same hash table chains, same stored entries, same LRU
list, same pool free list, same size and same hits/filtered/discarded counters, with no
partially constructed entry. -/
theorem op_failure_frame {Op R : Type} (hashOp : Op → Nat) (beqOp : Op → Op → Bool)
    (filters : List (Op → Bool)) (eval eval0 : Op → Option R) (c : cache_state Op R)
    (op : Op)
    (hwf : cacheWF hashOp beqOp eval0 c)
    (hacc : apply_filters filters op = true)
    (hmiss : ∀ p ∈ c.store, beqOp op p.2.1 = false)
    (hfail : eval op = none) :
    cache_lookup hashOp beqOp filters eval c op =
      (.opFailed, { c with misses := c.misses + 1 }) :=
  cache_lookup_miss_fail hwf hacc hmiss hfail

theorem op_failure_frame_witness :
    cache_lookup natHash Nat.beq [] (fun _ => none) cW1 9 =
      (.opFailed, { cW1 with misses := cW1.misses + 1 }) := by
  refine op_failure_frame natHash Nat.beq [] (fun _ => none) natEval cW1 9
    ⟨⟨2, rfl⟩, by decide, by decide, by decide, by decide, by decide, by decide, by decide,
      by decide, by decide, by decide, by decide, by decide⟩
    (by decide) (by decide) rfl

/-- Claim C3 (code bug): assigning a handle to itself while it is the only reference first
decrements the counter to zero, which runs the deletion handler and erases the value from
the unification table, and then increments a reference counter inside freed memory: after
the self-assignment the table no longer contains the value even though the handle is live,
and the sticky undefined-behaviour flag records the access to freed storage. -/
theorem ptr_self_assign_use_after_free :
    (ptr_copy_assign 0 0 { objs := [(0, 7, 1)], ub := false } : Nat × ref_state Nat).2.objs
      = []
    ∧ (ptr_copy_assign 0 0 { objs := [(0, 7, 1)], ub := false } : Nat × ref_state Nat).2.ub
      = true
    ∧ (ptr_copy_assign 0 0 { objs := [(0, 7, 1)], ub := false } : Nat × ref_state Nat).1
      = 0 := by
  decide

/-- Claim C10 (code bug): cache::clear resets the hash table and returns every slot to the
pool but leaves the LRU list untouched, so the invariant that the LRU list holds exactly
the live entries is broken: after two misses and a clear the table is empty while the LRU
list still holds the two destroyed slots; the next miss then reuses slot 1 and appends it
to the LRU list again, leaving a dangling front reference to slot 0 and a duplicated slot 1
that a later eviction will misuse. -/
theorem cache_clear_leaves_stale_lru :
    c10_s2.size = 2 ∧ c10_s2.lru = [0, 1]
    ∧ c10_s3.size = 0 ∧ c10_s3.buckets.flatten = [] ∧ c10_s3.lru = [0, 1]
    ∧ c10_s4.lru = [0, 1, 1] ∧ ¬ c10_s4.lru.Nodup
    ∧ store_find c10_s4.store 1 = some (3, 4) ∧ store_find c10_s4.store 0 = none := by
  decide

/-- Claim C1: for any operation that no filter rejects, the value returned by the cache is
the operation's own result (cache(op) = op(context)); and whenever the cache already holds
an entry whose operation equals op — the situation after a first call with an equal
operation, until that entry is evicted or the cache is cleared — the lookup is a hit: hits
is incremented by one, the entry is spliced to the most-recently-used back end of the LRU
list, the stored result is returned, and the operation is not re-invoked: the same outcome
arises for every evaluation function, and the stored entries, chains, size and the other
counters are untouched. -/
theorem cache_correct_and_hit {Op R : Type} (hashOp : Op → Nat) (beqOp : Op → Op → Bool)
    (filters : List (Op → Bool)) (eval : Op → Option R) (c : cache_state Op R) (op : Op)
    (hwf : cacheWF hashOp beqOp eval c)
    (hsymm : ∀ a b, beqOp a b = beqOp b a)
    (htrans : ∀ a b d, beqOp a b = true → beqOp b d = true → beqOp a d = true)
    (hbeqhash : ∀ a b, beqOp a b = true → hashOp a = hashOp b)
    (hpure : ∀ a b, beqOp a b = true → eval a = eval b)
    (hacc : apply_filters filters op = true) :
    (∀ r c2, cache_lookup hashOp beqOp filters eval c op = (.ok r, c2) → eval op = some r)
    ∧ (∀ i e, (i, e) ∈ c.store → beqOp op e.1 = true →
        cache_lookup hashOp beqOp filters eval c op =
          (.ok e.2, { c with hits := c.hits + 1, lru := move_to_back i c.lru })
        ∧ (∀ eval2 : Op → Option R, cache_lookup hashOp beqOp filters eval2 c op =
            (.ok e.2, { c with hits := c.hits + 1, lru := move_to_back i c.lru }))) := by
  refine ⟨fun r c2 h => cache_lookup_ok_eval hwf hpure h, ?_⟩
  intro i e hmem hmatch
  exact ⟨cache_lookup_hit hwf hsymm htrans hbeqhash hacc hmem hmatch,
    fun eval2 => cache_lookup_hit hwf hsymm htrans hbeqhash hacc hmem hmatch⟩

theorem cache_correct_and_hit_witness :
    cache_lookup natHash Nat.beq [] natEval cW1 5 =
      (.ok 6, { cW1 with hits := cW1.hits + 1, lru := move_to_back 0 cW1.lru }) := by
  have h := (cache_correct_and_hit natHash Nat.beq [] natEval cW1 5
    ⟨⟨2, rfl⟩, by decide, by decide, by decide, by decide, by decide, by decide, by decide,
      by decide, by decide, by decide, by decide, by decide⟩
    natBeqSymm natBeqTrans natBeqHash natBeqPure (by decide)).2 0 (5, 6)
    (by decide) (by decide)
  exact h.1

/-- Claim C5: on a non-filtered miss while the cache is full, exactly one entry is evicted
before the new one is inserted: the evicted entry is the front (oldest) element of the LRU
list — the entry least recently touched by an insertion or a hit, every other live entry
sitting behind it in the list; it is unlinked from the hash table through its own hash and
operation equality, destructed, and its pool slot is pushed back on the free list (and
immediately reused for the new entry, leaving the free list unchanged overall); discarded
grows by exactly one and the final size equals the capacity, which no lookup ever
exceeds. -/
theorem cache_eviction_lru {Op R : Type} (hashOp : Op → Nat) (beqOp : Op → Op → Bool)
    (filters : List (Op → Bool)) (eval : Op → Option R) (c : cache_state Op R) (op : Op)
    (res : R)
    (hwf : cacheWF hashOp beqOp eval c)
    (hrefl : ∀ a, beqOp a a = true)
    (hsymm : ∀ a b, beqOp a b = beqOp b a)
    (hacc : apply_filters filters op = true)
    (hmiss : ∀ p ∈ c.store, beqOp op p.2.1 = false)
    (hres : eval op = some res)
    (hfull : c.size = c.max_size)
    (hpos : 0 < c.max_size) :
    ∃ oldest rest oe c3,
      c.lru = oldest :: rest
      ∧ store_find c.store oldest = some oe
      ∧ cache_lookup hashOp beqOp filters eval c op = (.ok res, c3)
      ∧ c3.discarded = c.discarded + 1
      ∧ c3.misses = c.misses + 1
      ∧ c3.hits = c.hits
      ∧ c3.size = c.max_size
      ∧ c3.free = c.free
      ∧ c3.lru = rest ++ [oldest]
      ∧ store_find c3.store oldest = some (op, res)
      ∧ (∀ p ∈ c3.store, beqOp oe.1 p.2.1 = false)
      ∧ (∀ (op2 : Op) (eval2 : Op → Option R),
          (cache_lookup hashOp beqOp filters eval2 c op2).2.size ≤ c.max_size) := by
  have hlen : 0 < c.lru.length := by
    rw [hwf.lru_perm.length_eq, ← hwf.hsize, hfull]
    omega
  obtain ⟨oldest, rest, hlru⟩ : ∃ o r2, c.lru = o :: r2 := by
    cases hl : c.lru with
    | nil => rw [hl] at hlen; simp at hlen
    | cons o r2 => exact ⟨o, r2, rfl⟩
  have holdfl : oldest ∈ c.buckets.flatten :=
    hwf.lru_perm.mem_iff.mp (by rw [hlru]; exact List.mem_cons_self _ _)
  have hsome := hwf.chain_ids oldest holdfl
  obtain ⟨oe, hoe⟩ : ∃ oe, store_find c.store oldest = some oe := by
    cases hsf : store_find c.store oldest with
    | none => rw [hsf] at hsome; simp at hsome
    | some oe => exact ⟨oe, rfl⟩
  have heq := cache_lookup_evict_eq hwf hrefl hacc hmiss hres hfull hlru hoe
  have hoemem := store_find_some_mem hoe
  refine ⟨oldest, rest, oe, _, hlru, hoe, heq, rfl, rfl, rfl, ?_, rfl, rfl, ?_, ?_,
    fun op2 eval2 => cache_lookup_size_le hwf hrefl op2⟩
  · show c.size - 1 + 1 = c.max_size
    omega
  · show store_find ((oldest, op, res) :: c.store.eraseP (fun q => q.1 == oldest)) oldest
      = some (op, res)
    rw [store_find, if_pos rfl]
  · intro p hp
    rcases List.mem_cons.mp hp with h1 | h1
    · rw [h1]
      show beqOp oe.1 op = false
      rw [hsymm]
      exact hmiss (oldest, oe) hoemem
    · have hpmem : p ∈ c.store := (List.eraseP_sublist c.store).mem h1
      have hpne : p.1 ≠ oldest := by
        intro hcon
        have hfind := store_find_eraseP_self (l := c.store) (i := oldest) hwf.keys_nodup
        have hsome2 := store_find_isSome_of_mem (l := c.store.eraseP (fun q => q.1 == oldest))
          (i := p.1) (b := p.2) (by
            rw [show ((p.1, p.2) : Nat × Op × R) = p from rfl]
            exact h1)
        rw [hcon, hfind] at hsome2
        simp at hsome2
      exact hwf.ops_ne (oldest, oe) hoemem p hpmem (by
        intro hcon
        exact hpne (by rw [← hcon]))

theorem cache_eviction_lru_witness :
    (cache_lookup natHash Nat.beq [] natEval cW5 1).2.discarded = 1
    ∧ (cache_lookup natHash Nat.beq [] natEval cW5 1).2.size = 1
    ∧ (cache_lookup natHash Nat.beq [] natEval cW5 1).2.lru = [0]
    ∧ store_find (cache_lookup natHash Nat.beq [] natEval cW5 1).2.store 0 = some (1, 2) := by
  obtain ⟨oldest, rest, oe, c3, hlru, hoe, heq, hdisc, _, _, hsz, _, hlru3, hfind, _, _⟩ :=
    cache_eviction_lru natHash Nat.beq [] natEval cW5 1 2
      ⟨⟨1, rfl⟩, by decide, by decide, by decide, by decide, by decide, by decide, by decide,
        by decide, by decide, by decide, by decide, by decide⟩
      natBeqRefl natBeqSymm (by decide) (by decide) rfl (by decide) (by decide)
  have ho : oldest = 0 := by
    have : cW5.lru = [0] := by decide
    rw [this] at hlru
    injection hlru with h1 _
    exact h1.symm
  have hr : rest = [] := by
    have : cW5.lru = [0] := by decide
    rw [this] at hlru
    injection hlru with _ h2
    exact h2.symm
  rw [heq]
  subst ho
  subst hr
  refine ⟨by rw [hdisc]; decide, by rw [hsz]; decide, by rw [hlru3]; rfl, hfind⟩

/-- Claim C2: inside a well-formed unification table the stored unified values are equal
exactly when they are the same stored object (pointer identity), so for any two handles
into the table, *a == *b iff ptr(a) == ptr(b); the well-formedness is preserved by
make/make_sized (at every payload size) and by erase; and a unifying insertion whose value
already has an equal stored element returns exactly that element with no new insertion —
the duplicate is destructed, never stored. -/
theorem unification_table_uniqueness {V : Type} (hashV : V → Nat) (beqV : V → V → Bool)
    (sU : Nat) (s : ut_state V) (hinv : ut_inv hashV beqV s)
    (hrefl : ∀ w, beqV w w = true)
    (hsymm : ∀ w w2, beqV w w2 = beqV w2 w)
    (htrans : ∀ w1 w2 w3, beqV w1 w2 = true → beqV w2 w3 = true → beqV w1 w3 = true)
    (hashEq : ∀ w w2, beqV w w2 = true → hashV w = hashV w2) :
    (∀ p ∈ s.table.buckets.flatten, ∀ q ∈ s.table.buckets.flatten,
      (beqV p.2 q.2 = true ↔ p.1 = q.1))
    ∧ (∀ (v : V) (extra : Nat), ut_inv hashV beqV (ut_make hashV beqV sU v extra s).2)
    ∧ (∀ (a : Nat) (v : V), ut_inv hashV beqV (ut_erase hashV beqV a v s))
    ∧ (∀ (a : Nat) (v : V), ∀ p ∈ s.table.buckets.flatten, beqV v p.2 = true →
        (ht_insert (uhash hashV) (ubeq beqV) (a, v) s.table).1 = (p, false)) :=
  ⟨ut_unique_iff hinv hrefl hashEq hsymm,
   fun v extra => ut_make_inv v extra hinv hashEq hsymm,
   fun a v => ut_erase_inv a v hinv,
   fun a v p hp hb => ht_insert_finds_existing hinv hrefl hashEq hsymm htrans hp hb⟩

theorem unification_table_uniqueness_witness :
    (ht_insert (uhash (fun v : Nat => v)) (ubeq Nat.beq) (5, 7) utW.table).1
      = ((0, 7), false) := by
  have h := (unification_table_uniqueness (fun v => v) Nat.beq 1 utW
    ⟨⟨⟨1, rfl⟩, by decide, by decide, by decide, by decide⟩, by decide, by decide,
      fun a2 ha2 => Option.noConfusion (show (none : Option Nat) = some a2 from ha2),
      fun a2 ha2 => Option.noConfusion (show (none : Option Nat) = some a2 from ha2)⟩
    natBeqRefl natBeqSymm natBeqTrans
    (fun w w2 hw => by simp at hw; rw [hw])).2.2.2 5 7 (0, 7) (by decide) (by decide)
  exact h

theorem ut_unify_hit_adopt {V : Type} {hashV : V → Nat} {beqV : V → V → Bool}
    {sU a : Nat} {v : V} {extra : Nat} {s : ut_state V} {old : Nat}
    (hdup : (ht_insert (uhash hashV) (ubeq beqV) (a, v) s.table).1.2 = false)
    (hsz : s.m_cache_size < sU + extra) (hc : s.m_cache = some old) :
    (ut_unify hashV beqV sU a v extra s).2 =
      { s with access := s.access + 1,
               table := (ht_insert (uhash hashV) (ubeq beqV) (a, v) s.table).2,
               hits := s.hits + 1,
               m_cache := some a, m_cache_size := sU + extra,
               heap := s.heap.eraseP (fun p => p.1 == old),
               freed := old :: s.freed } := by
  set r := ht_insert (uhash hashV) (ubeq beqV) (a, v) s.table with hrdef
  simp only [ut_unify, ← hrdef, hdup, Bool.false_eq_true, if_false, if_pos hsz, hc]

theorem ut_unify_hit_adopt_empty {V : Type} {hashV : V → Nat} {beqV : V → V → Bool}
    {sU a : Nat} {v : V} {extra : Nat} {s : ut_state V}
    (hdup : (ht_insert (uhash hashV) (ubeq beqV) (a, v) s.table).1.2 = false)
    (hsz : s.m_cache_size < sU + extra) (hc : s.m_cache = none) :
    (ut_unify hashV beqV sU a v extra s).2 =
      { s with access := s.access + 1,
               table := (ht_insert (uhash hashV) (ubeq beqV) (a, v) s.table).2,
               hits := s.hits + 1,
               m_cache := some a, m_cache_size := sU + extra } := by
  set r := ht_insert (uhash hashV) (ubeq beqV) (a, v) s.table with hrdef
  simp only [ut_unify, ← hrdef, hdup, Bool.false_eq_true, if_false, if_pos hsz, hc]

theorem ut_unify_hit_keep {V : Type} {hashV : V → Nat} {beqV : V → V → Bool}
    {sU a : Nat} {v : V} {extra : Nat} {s : ut_state V}
    (hdup : (ht_insert (uhash hashV) (ubeq beqV) (a, v) s.table).1.2 = false)
    (hsz : ¬ s.m_cache_size < sU + extra) :
    (ut_unify hashV beqV sU a v extra s).2 =
      { s with access := s.access + 1,
               table := (ht_insert (uhash hashV) (ubeq beqV) (a, v) s.table).2,
               hits := s.hits + 1,
               heap := s.heap.eraseP (fun p => p.1 == a),
               freed := a :: s.freed } := by
  set r := ht_insert (uhash hashV) (ubeq beqV) (a, v) s.table with hrdef
  simp only [ut_unify, ← hrdef, hdup, Bool.false_eq_true, if_false, if_neg hsz]

/-- Claim C7: behaviour of the one-slot allocation cache of the unification table.  On an
insertion hit the duplicate is destructed and its slab — whose recorded size is
sizeof(U) + extra_bytes — is adopted as the cached slab exactly when that size is strictly
greater than the recorded size of the currently cached slab, in which case the previously
cached slab (if any) is freed; otherwise the duplicate's slab is freed.  allocate returns
the cached slab exactly when one is held and its recorded size is at least
sizeof(U) + extra_bytes, emptying the one-slot cache; otherwise it heap-allocates a fresh
block of sizeof(U) + extra_bytes bytes at a fresh address. -/
theorem ut_one_slot_cache {V : Type} (hashV : V → Nat) (beqV : V → V → Bool)
    (sU : Nat) (a : Nat) (v : V) (extra : Nat) (s : ut_state V)
    (hdup : (ht_insert (uhash hashV) (ubeq beqV) (a, v) s.table).1.2 = false) :
    ((s.m_cache_size < sU + extra →
        (ut_unify hashV beqV sU a v extra s).2.m_cache = some a
        ∧ (ut_unify hashV beqV sU a v extra s).2.m_cache_size = sU + extra
        ∧ (∀ old, s.m_cache = some old →
            old ∈ (ut_unify hashV beqV sU a v extra s).2.freed))
      ∧ (¬ s.m_cache_size < sU + extra →
        (ut_unify hashV beqV sU a v extra s).2.m_cache = s.m_cache
        ∧ (ut_unify hashV beqV sU a v extra s).2.m_cache_size = s.m_cache_size
        ∧ a ∈ (ut_unify hashV beqV sU a v extra s).2.freed)
      ∧ (ut_unify hashV beqV sU a v extra s).2.hits = s.hits + 1)
    ∧ (∀ a2, s.m_cache = some a2 → sU + extra ≤ s.m_cache_size →
        ut_allocate sU extra s = (a2, { s with m_cache := none, m_cache_size := 0 }))
    ∧ ((s.m_cache = none ∨ s.m_cache_size < sU + extra) →
        ut_allocate sU extra s = (s.next_addr,
          { s with next_addr := s.next_addr + 1,
                   heap := (s.next_addr, sU + extra) :: s.heap })) := by
  refine ⟨⟨?_, ?_, ?_⟩, ?_, ?_⟩
  · intro hsz
    cases hc : s.m_cache with
    | some old =>
      rw [ut_unify_hit_adopt hdup hsz hc]
      exact ⟨rfl, rfl, fun o ho => by
        injection ho with ho2
        rw [← ho2]
        exact List.mem_cons_self _ _⟩
    | none =>
      rw [ut_unify_hit_adopt_empty hdup hsz hc]
      exact ⟨rfl, rfl, fun o ho => Option.noConfusion ho⟩
  · intro hsz
    rw [ut_unify_hit_keep hdup hsz]
    exact ⟨rfl, rfl, List.mem_cons_self _ _⟩
  · by_cases hsz : s.m_cache_size < sU + extra
    · cases hc : s.m_cache with
      | some old => rw [ut_unify_hit_adopt hdup hsz hc]
      | none => rw [ut_unify_hit_adopt_empty hdup hsz hc]
    · rw [ut_unify_hit_keep hdup hsz]
  · intro a2 ha2 hsz
    rw [ut_allocate.eq_def, ha2]
    simp only [if_pos hsz]
  · intro hor
    rcases hor with h1 | h1
    · rw [ut_allocate.eq_def, h1]
    · cases hc : s.m_cache with
      | none => rw [ut_allocate.eq_def, hc]
      | some a2 =>
        rw [ut_allocate.eq_def, hc]
        simp only [if_neg (by omega : ¬ sU + extra ≤ s.m_cache_size)]

theorem ut_one_slot_cache_witness :
    (ut_unify (fun v : Nat => v) Nat.beq 1 5 7 2 utW).2.m_cache = some 5
    ∧ (ut_unify (fun v : Nat => v) Nat.beq 1 5 7 2 utW).2.m_cache_size = 3
    ∧ ut_allocate 1 2 utW = (utW.next_addr,
        { utW with next_addr := utW.next_addr + 1,
                   heap := (utW.next_addr, 3) :: utW.heap }) := by
  have h := ut_one_slot_cache (fun v : Nat => v) Nat.beq 1 5 7 2 utW (by decide)
  have h1 := h.1.1 (by decide)
  exact ⟨h1.1, h1.2.1, h.2.2 (Or.inl (by decide))⟩

/-- Claim C8: a growing-mode insertion triggers a rehash exactly when the load factor after
the insertion step reaches or exceeds the configured maximum (size / bucket_count ≥
mlf_num / mlf_den, the default being 3/4, compared exactly as mlf_num * bucket_count ≤
size * mlf_den); the rehash doubles the bucket count and otherwise the table is left as the
insertion step produced it; the rehash preserves the size, keeps every previously stored
element, re-places every element in the bucket selected by hash &&& (bucket_count - 1)
(the placed field of the resulting invariant), and introduces no duplicates (pairwise
unequal stored elements). -/
theorem growing_insert_rehash {α : Type} (hashD : α → Nat) (eqD : α → α → Bool)
    (x : α) (t : hash_table α) (hinv : ht_inv hashD eqD t)
    (hashEq : ∀ a b, eqD a b = true → hashD a = hashD b)
    (hsymm : ∀ a b, eqD a b = eqD b a) :
    ((ht_insert hashD eqD x t).2.nb_rehash = t.nb_rehash + 1 ↔
      t.mlf_num * t.nb_buckets ≤ (ht_insert_mid hashD eqD x t).size * t.mlf_den)
    ∧ (t.mlf_num * t.nb_buckets ≤ (ht_insert_mid hashD eqD x t).size * t.mlf_den →
        (ht_insert hashD eqD x t).2.nb_buckets = t.nb_buckets * 2)
    ∧ ((ht_insert_mid hashD eqD x t).size * t.mlf_den < t.mlf_num * t.nb_buckets →
        (ht_insert hashD eqD x t).2 = ht_insert_mid hashD eqD x t)
    ∧ (ht_insert hashD eqD x t).2.size = (ht_insert_mid hashD eqD x t).size
    ∧ (∀ a ∈ t.buckets.flatten, a ∈ (ht_insert hashD eqD x t).2.buckets.flatten)
    ∧ ht_inv hashD eqD (ht_insert hashD eqD x t).2
    ∧ (ht_insert hashD eqD x t).2.buckets.flatten.Pairwise
        (fun a b => eqD a b = false ∧ eqD b a = false) := by
  have hspec := ht_insert_spec (x := x) hinv hashEq hsymm
  refine ⟨hspec.2.2.2.1, hspec.2.2.2.2.1, hspec.2.2.2.2.2.1, hspec.2.2.1, ?_, hspec.1,
    global_ne_of_raw_inv hspec.1 hashEq hsymm⟩
  intro a ha
  refine hspec.2.1.mem_iff.mpr ?_
  cases hins : (ht_insert hashD eqD x t).1.2 with
  | true =>
    exact (hspec.2.2.2.2.2.2.1 hins).mem_iff.mpr (List.mem_cons_of_mem x ha)
  | false =>
    rw [hspec.2.2.2.2.2.2.2 hins |>.1]
    exact ha

theorem growing_insert_rehash_witness :
    (ht_insert (fun n : Nat => n) Nat.beq 3 tW).2.nb_buckets = 4
    ∧ (ht_insert (fun n : Nat => n) Nat.beq 3 tW).2.nb_rehash = tW.nb_rehash + 1
    ∧ (ht_insert (fun n : Nat => n) Nat.beq 3 tW).2.size = 2
    ∧ (0 : Nat) ∈ (ht_insert (fun n : Nat => n) Nat.beq 3 tW).2.buckets.flatten := by
  have h := growing_insert_rehash (fun n : Nat => n) Nat.beq 3 tW
    ⟨⟨1, rfl⟩, by decide, by decide, by decide, by decide⟩
    (fun a b hab => by simp at hab; rw [hab]) natBeqSymm
  refine ⟨by rw [h.2.1 (by decide)]; decide, h.1.mpr (by decide), by decide,
    h.2.2.2.2.1 0 (by decide)⟩

end coredd
